import Mathlib

/-!
Verification of the flat JSON parser (`json.h`): a shallow embedding of the
scanner, the node model, the recursive-descent builder, the path resolver and
the value codec, together with theorems settling the specification claims.

Input text is modelled as `List Char`, where each character stands for one
input byte (the C++ code reads `u8` values; `Char.toNat` gives the byte value).
Pointers into the node buffer are modelled as indices (`Nat`), and the
`JsonNode* next` field as `Option Nat`.  Machine integers are modelled as `Nat`
or `Int` with explicit reduction modulo `2 ^ 32` or `2 ^ 64` where the C++
arithmetic wraps.  Out-of-bounds reads that the C++ performs without a bounds
check are modelled by `List.getD` with a zero byte (the scanner) or by an
explicit crash value (the path resolver, whose null-pointer dereference is
observable).
-/

namespace ErsJson

/-- `json.h` `JsonTokenType`. -/
inductive JsonTokenType where
  | INVALID
  | JSON_ARRAY_BEGIN
  | JSON_OBJECT_BEGIN
  | JSON_ARRAY_END
  | JSON_OBJECT_END
  | JSON_COLON
  | JSON_COMMA
  | JSON_TRUE
  | JSON_FALSE
  | JSON_NULL
  | JSON_NUMBER
  | JSON_STRING
  | JSON_FLOAT_HEX
  | JSON_DOUBLE_HEX
  | JSON_KEY
  | JSON_EOF
  | SYNTACTIC_ERROR
deriving DecidableEq, Repr

/-- `json.h` `JsonNodeType`. -/
inductive JsonNodeType where
  | INVALID
  | JSON_ARRAY
  | JSON_OBJECT
  | JSON_TRUE
  | JSON_FALSE
  | JSON_NULL
  | JSON_NUMBER
  | JSON_FLOAT_HEX
  | JSON_DOUBLE_HEX
  | JSON_STRING
  | JSON_KEY
  | JSON_EOF
  | SYNTACTIC_ERROR
deriving DecidableEq, Repr

/-- `json.h` `JsonErrorCode`. -/
inductive JsonErrorCode where
  | NOT_DONE
  | VALID_JSON
  | INVALID_TOKENS
  | SYNTACTIC_ERRORS
  | CAPACITY_EXCEEDED
deriving DecidableEq, Repr

/-- `json.h` `JsonToken`: the `data`/`length` view is modelled by the token's
text itself (the list of covered input bytes). -/
structure JsonToken where
  text : List Char
  type : JsonTokenType
deriving DecidableEq, Repr

/-- `json.h` `JsonNode`.  The C++ `union { string_view as_sv; size_type count }`
is modelled by two separate fields; the node kind determines which one is
meaningful, exactly as in the source.  `next` is a buffer index or `none`. -/
structure JsonNode where
  type : JsonNodeType
  sv : List Char
  count : Nat
  next : Option Nat
deriving DecidableEq, Repr

/-- The zero byte, used to model reads that the C++ performs past a bound. -/
def c0 : Char := Char.ofNat 0

/-- `JsonParser::isDigit` (`'0' <= ch && ch <= '9'` on byte values). -/
def isDigitCh (ch : Char) : Bool := 48 ≤ ch.toNat && ch.toNat ≤ 57

/-- `JsonParser::isHexDigit` (`0-9 a-f A-F` on byte values). -/
def isHexDigitCh (ch : Char) : Bool :=
  (48 ≤ ch.toNat && ch.toNat ≤ 57) || (97 ≤ ch.toNat && ch.toNat ≤ 102) ||
  (65 ≤ ch.toNat && ch.toNat ≤ 70)

/-- `JsonParser::isWhitespace`. -/
def isWsCh (ch : Char) : Bool := ch = ' ' || ch = '\t' || ch = '\n' || ch = '\r'

/-- `JsonParser::isStructural`. -/
def isStructuralCh (ch : Char) : Bool :=
  ch = '{' || ch = '[' || ch = '}' || ch = ']' || ch = ':' || ch = ','

/-- `JsonParser::isValid` (the characters at which the scanner may restart
after an invalid token). -/
def isValidCh (ch : Char) : Bool :=
  isWsCh ch || isStructuralCh ch || isDigitCh ch || ch = 't' || ch = 'f' || ch = 'n'

/-- `JsonParser::skipWhitespace` (the line counter is diagnostic only and is
not modelled).  Like every scanning loop below, the loop is driven by a fuel
argument that the wrapper instantiates with more steps than the loop can
take, so the function is structurally recursive (and kernel-computable); the
loop itself advances while `m_pos < m_end` holds. -/
def skipWsF : Nat → List Char → Nat → Nat
  | 0, _, pos => pos
  | fl + 1, input, pos =>
    if pos < input.length then
      if isWsCh (input.getD pos c0) then skipWsF fl input (pos + 1) else pos
    else pos

/-- `JsonParser::skipWhitespace`. -/
def skipWs (input : List Char) (pos : Nat) : Nat :=
  skipWsF (input.length + 1) input pos

/-- Advance over decimal digits (the `while (isDigit) ++m_pos` loops). -/
def skipDigitsF : Nat → List Char → Nat → Nat
  | 0, _, pos => pos
  | fl + 1, input, pos =>
    if pos < input.length then
      if isDigitCh (input.getD pos c0) then skipDigitsF fl input (pos + 1) else pos
    else pos

/-- The digit-run loop of `JsonParser::matchNumber`. -/
def skipDigits (input : List Char) (pos : Nat) : Nat :=
  skipDigitsF (input.length + 1) input pos

/-- The `do_digits` lambda in `JsonParser::matchNumber`: one digit then a
digit run, or failure with the position unmoved. -/
def doDigits (input : List Char) (pos : Nat) : Bool × Nat :=
  if pos < input.length ∧ isDigitCh (input.getD pos c0) then
    (true, skipDigits input (pos + 1))
  else (false, pos)

/-- The fraction/exponent loop of `JsonParser::matchNumber`
(`while (result && !fraction_done && m_pos < m_end)`), fuelled. -/
def matchNumFracF : Nat → List Char → Nat → Bool × Nat
  | 0, _, pos => (true, pos)
  | fl + 1, input, pos =>
    if pos < input.length then
      let ch := input.getD pos c0
      if ch = '.' then
        let r := doDigits input (pos + 1)
        if r.1 then matchNumFracF fl input r.2 else (false, r.2)
      else if ch = 'e' ∨ ch = 'E' then
        let p1 := pos + 1
        let p2 := if p1 < input.length ∧ (input.getD p1 c0 = '-' ∨ input.getD p1 c0 = '+')
          then p1 + 1 else p1
        doDigits input p2
      else (true, pos)
    else (true, pos)

/-- `JsonParser::matchNumber`: optional `-`, then `0` or a nonzero digit run,
then the fraction/exponent loop.  Returns success and the final position. -/
def matchNumber (input : List Char) (pos : Nat) : Bool × Nat :=
  let p1 := if pos < input.length ∧ input.getD pos c0 = '-' then pos + 1 else pos
  let ch := input.getD p1 c0
  if ch = '0' then matchNumFracF (input.length + 1) input (p1 + 1)
  else if 49 ≤ ch.toNat ∧ ch.toNat ≤ 57 then
    matchNumFracF (input.length + 1) input (skipDigits input (p1 + 1))
  else (false, p1)

/-- `util::utf8_len`, the 32-entry most-significant-bits table, as the byte
ranges it encodes. -/
def utf8_len (b : Nat) : Nat :=
  if b < 0x80 then 1
  else if b < 0xC0 then 0
  else if b < 0xE0 then 2
  else if b < 0xF0 then 3
  else if b < 0xF8 then 4
  else 0

/-- The single-character escapes recognized by `JsonParser::matchString`:
`\\ / " 0 a b t v f r n`. -/
def isEscCh (ch : Char) : Bool :=
  ch = '\\' || ch = '/' || ch = '"' || ch = '0' || ch = 'a' || ch = 'b' ||
  ch = 't' || ch = 'v' || ch = 'f' || ch = 'r' || ch = 'n'

/-- The `for (count < 4) if (m_pos == m_end || !isHexDigit) break` loop of the
`\u` escape: skip up to `k` hex digits. -/
def skipHexUpTo (input : List Char) (pos : Nat) : Nat → Nat
  | 0 => pos
  | k + 1 =>
    if pos < input.length ∧ isHexDigitCh (input.getD pos c0) then
      skipHexUpTo input (pos + 1) k
    else pos

theorem skipHexUpTo_ge (input : List Char) (pos : Nat) (k : Nat) :
    pos ≤ skipHexUpTo input pos k := by
  induction k generalizing pos with
  | zero => exact Nat.le_refl _
  | succ k ih =>
    unfold skipHexUpTo
    split
    · exact Nat.le_trans (Nat.le_succ pos) (ih (pos + 1))
    · exact Nat.le_refl _

/-- The scanning loop of `JsonParser::matchString`, started just past the
opening quote; returns the position at which the loop stops (an unescaped
closing quote, an offending byte, or the end of input).  The read of `*m_pos`
immediately after `++m_pos` in the escape case has no bounds check in the C++;
it is modelled as reading the zero byte at the end of input. -/
def matchStrGoF : Nat → List Char → Nat → Nat
  | 0, _, pos => pos
  | fl + 1, input, pos =>
    if pos < input.length then
      let b := (input.getD pos c0).toNat
      if b = 0x22 then pos
      else if b < 0x20 ∨ b = 0x2F then pos
      else if b = 0x5C then
        let p1 := pos + 1
        let e := input.getD p1 c0
        if isEscCh e then matchStrGoF fl input (p1 + 1)
        else if e = 'u' then matchStrGoF fl input (skipHexUpTo input (p1 + 1) 4)
        else p1
      else if b < 0xFF then matchStrGoF fl input (pos + 1)
      else
        if utf8_len b = 0 then pos else matchStrGoF fl input (pos + utf8_len b)
    else pos

/-- The string-scanning loop with enough fuel for its input. -/
def matchStrGo (input : List Char) (pos : Nat) : Nat :=
  matchStrGoF (input.length + 1) input pos

/-- `JsonParser::matchString`: scan from the opening quote; the token is
accepted only if the loop stopped on a closing quote, which is then consumed. -/
def matchString (input : List Char) (pos : Nat) : Bool × Nat :=
  let p := matchStrGo input (pos + 1)
  if p < input.length ∧ input.getD p c0 = '"' then (true, p + 1) else (false, p)

/-- `JsonParser::matchLiteral`: match the tail of `true`/`false`/`null`
starting one past the current position. -/
def matchLiteralGo (input : List Char) (pos : Nat) : List Char → Bool × Nat
  | [] => (true, pos + 1)
  | c :: cs =>
    let p1 := pos + 1
    if p1 < input.length ∧ input.getD p1 c0 = c then matchLiteralGo input p1 cs
    else (false, p1)

/-- The hex-digit counting loop of `JsonParser::matchFloatHex`.  The count is
a `u8` in the source; it is reduced modulo 256 where compared. -/
def hexCountF : Nat → List Char → Nat → Nat × Nat
  | 0, _, pos => (0, pos)
  | fl + 1, input, pos =>
    if pos < input.length then
      if isHexDigitCh (input.getD pos c0) then
        let r := hexCountF fl input (pos + 1)
        (r.1 + 1, r.2)
      else (0, pos)
    else (0, pos)

/-- The hex-digit counting loop with enough fuel for its input. -/
def hexCount (input : List Char) (pos : Nat) : Nat × Nat :=
  hexCountF (input.length + 1) input pos

/-- The invalid-token recovery loop of `JsonParser::getNextToken`
(`while (m_pos != m_end && !isValid(*m_pos)) ++m_pos`). -/
def skipInvalidF : Nat → List Char → Nat → Nat
  | 0, _, pos => pos
  | fl + 1, input, pos =>
    if pos < input.length then
      if isValidCh (input.getD pos c0) then pos else skipInvalidF fl input (pos + 1)
    else pos

/-- The invalid-token recovery loop with enough fuel for its input. -/
def skipInvalid (input : List Char) (pos : Nat) : Nat :=
  skipInvalidF (input.length + 1) input pos

/-- `JsonParser::getNextToken`: classify the byte at `pos`, run the matching
function, apply invalid-token recovery, take the covered text, then skip
whitespace.  Returns the token and the new position. -/
def getNextToken (input : List Char) (pos : Nat) : JsonToken × Nat :=
  if pos ≥ input.length then ({ text := [], type := JsonTokenType.JSON_EOF }, pos)
  else
    let ch := input.getD pos c0
    let r : JsonTokenType × Nat :=
      if isDigitCh ch ∨ ch = '-' then
        if pos + 1 < input.length ∧ input.getD (pos + 1) c0 = 'x' then
          let hc := hexCount input (pos + 2)
          (if hc.1 % 256 = 8 then JsonTokenType.JSON_FLOAT_HEX
           else if hc.1 % 256 = 16 then JsonTokenType.JSON_DOUBLE_HEX
           else JsonTokenType.INVALID, hc.2)
        else
          let mn := matchNumber input pos
          (if mn.1 then JsonTokenType.JSON_NUMBER else JsonTokenType.INVALID, mn.2)
      else if ch = '"' then
        let ms := matchString input pos
        (if ms.1 then JsonTokenType.JSON_STRING else JsonTokenType.INVALID, ms.2)
      else if ch = 't' then
        let ml := matchLiteralGo input pos ['r', 'u', 'e']
        (if ml.1 then JsonTokenType.JSON_TRUE else JsonTokenType.INVALID, ml.2)
      else if ch = 'f' then
        let ml := matchLiteralGo input pos ['a', 'l', 's', 'e']
        (if ml.1 then JsonTokenType.JSON_FALSE else JsonTokenType.INVALID, ml.2)
      else if ch = 'n' then
        let ml := matchLiteralGo input pos ['u', 'l', 'l']
        (if ml.1 then JsonTokenType.JSON_NULL else JsonTokenType.INVALID, ml.2)
      else if ch = '{' then (JsonTokenType.JSON_OBJECT_BEGIN, pos + 1)
      else if ch = '[' then (JsonTokenType.JSON_ARRAY_BEGIN, pos + 1)
      else if ch = '}' then (JsonTokenType.JSON_OBJECT_END, pos + 1)
      else if ch = ']' then (JsonTokenType.JSON_ARRAY_END, pos + 1)
      else if ch = ':' then (JsonTokenType.JSON_COLON, pos + 1)
      else if ch = ',' then (JsonTokenType.JSON_COMMA, pos + 1)
      else (JsonTokenType.INVALID, pos)
    let p2 := if r.1 = JsonTokenType.INVALID then skipInvalid input (r.2 + 1) else r.2
    (({ text := (input.drop pos).take (p2 - pos), type := r.1 }), skipWs input p2)

/-! ### Value codec (`namespace util`) -/

/-- `util::hex_digit_to_u32` with assertions active: `none` models the
`JSON_ASSERT(false)` exit on a non-hex character. -/
def hexDigitValA (ch : Char) : Option Nat :=
  if 48 ≤ ch.toNat ∧ ch.toNat ≤ 57 then some (ch.toNat - 48)
  else if 97 ≤ ch.toNat ∧ ch.toNat ≤ 102 then some (ch.toNat - 87)
  else if 65 ≤ ch.toNat ∧ ch.toNat ≤ 70 then some (ch.toNat - 55)
  else none

/-- The `x = x * 16 + hex_digit_to_u32(*p++)` accumulation loop shared by
`util::hex_to_float` and `util::hex_to_double`: `k` iterations into an
accumulator reduced modulo `m` (the accumulator's machine width — `2 ^ 32` in
both functions, since both declare `u32 x`).  Reading past the end of the
digit string is modelled as `none`. -/
def hexAccumGo (m : Nat) : Nat → Nat → List Char → Option Nat
  | x, 0, _ => some x
  | _, _ + 1, [] => none
  | x, k + 1, c :: cs =>
    match hexDigitValA c with
    | none => none
    | some d => hexAccumGo m ((x * 16 + d) % m) k cs

/-- `util::hex_to_float`, at the level of the accumulated 32-bit pattern:
skip `0x`, then accumulate 8 hex digits into the `u32 x`. -/
def hex_to_float_bits (s : List Char) : Option Nat :=
  hexAccumGo 4294967296 0 8 (s.drop 2)

/-- The accumulator of `util::hex_to_double`: skip `0x`, then accumulate 16
hex digits — into a `u32 x` in the source, so modulo `2 ^ 32`. -/
def hex_to_double_accum (s : List Char) : Option Nat :=
  hexAccumGo 4294967296 0 16 (s.drop 2)

/-- The 64-bit pattern produced by `util::hex_to_double`'s
`memcpy((u8*)&result, (u8*)&x, sizeof(f64))`: on a little-endian machine the
4 bytes of `x` become the low 32 bits, and the 4 bytes read past the end of
`x` (an out-of-bounds read) contribute an arbitrary `garbage` value as the
high 32 bits. -/
def hex_to_double_bits (garbage : Nat) (s : List Char) : Option Nat :=
  (hex_to_double_accum s).map (fun x => garbage % 4294967296 * 4294967296 + x)

/-- The 16-hex-digit lowercase encoding of a 64-bit pattern (the inverse
direction of the round-trip claim), with the `0x` marker. -/
def toHexDigit (d : Nat) : Char :=
  if d < 10 then Char.ofNat (48 + d) else Char.ofNat (87 + d)

/-- Render `w` as exactly `k` hex digits, most significant first. -/
def toHexChars : Nat → Nat → List Char
  | _, 0 => []
  | w, k + 1 => toHexDigit (w / 16 ^ k % 16) :: toHexChars w k

/-- A 16-hex-digit token (`0x` + 16 digits) for the 64-bit pattern `w`. -/
def hex16Token (w : Nat) : List Char := '0' :: 'x' :: toHexChars w 16

/-- `memcmp` over byte lists (called on equal-length prefixes, as in the
source's bounded three-way comparisons). -/
def memOrd : List Char → List Char → Ordering
  | [], [] => Ordering.eq
  | [], _ :: _ => Ordering.lt
  | _ :: _, [] => Ordering.gt
  | a :: as, b :: bs =>
    if a.toNat < b.toNat then Ordering.lt
    else if b.toNat < a.toNat then Ordering.gt
    else memOrd as bs

/-- Specification-side value of a decimal digit string (no wraparound). -/
def digitsVal (cs : List Char) : Nat :=
  cs.foldl (fun a c => a * 10 + (c.toNat - 48)) 0

/-- `util::to_u64`: consume a maximal digit run, accumulating into a `u64`
(modulo `2 ^ 64`); the consumed count is zeroed when it exceeds 20 or when it
is 20 and the text compares lexicographically above `"18446744073709551615"`.
Returns (consumed count, stored value). -/
def to_u64M (cs : List Char) : Nat × Nat :=
  let ds := cs.takeWhile (fun c => isDigitCh c)
  let n := ds.foldl (fun a c => (a * 10 + (c.toNat - 48)) % 18446744073709551616) 0
  let r := ds.length
  let r2 := if 20 < r ∨ (r = 20 ∧ memOrd (cs.take 20) "18446744073709551615".toList = Ordering.gt)
    then 0 else r
  (r2, n)

/-- Two's-complement wraparound of a 64-bit signed value (the practical
behaviour of the overflowing `s64` arithmetic in `util::to_s64`). -/
def wrap64 (x : Int) : Int :=
  (x + 9223372036854775808) % 18446744073709551616 - 9223372036854775808

/-- `util::to_s64`: optional `-` (the first byte is read unconditionally),
a maximal digit run accumulated into an `s64`, and the overflow check against
`"9223372036854775807"` / `"-9223372036854775808"` by length and
lexicographic comparison.  Returns (consumed count incl. sign, stored value). -/
def to_s64M (cs : List Char) : Nat × Int :=
  let sign := cs.headD c0 = '-'
  let rest := if sign then cs.drop 1 else cs
  let ds := rest.takeWhile (fun c => isDigitCh c)
  let n : Int := ds.foldl (fun a c => wrap64 (a * 10 + ((c.toNat : Int) - 48))) 0
  let r := ds.length + (if sign then 1 else 0)
  let fail :=
    (¬ sign ∧ (19 < r ∨ (r = 19 ∧ memOrd (cs.take 19) "9223372036854775807".toList = Ordering.gt)))
    ∨ (sign ∧ (20 < r ∨ (r = 20 ∧ memOrd (cs.take 20) "-9223372036854775808".toList = Ordering.gt)))
  (if fail then 0 else r, if sign then wrap64 (-n) else n)

/-- The named single-character escapes written by `util::json_string_to_utf8`
(`\0 \a \b \t \v \f \r \n`); `none` models the `JSON_ASSERTF(false)` exit on
any other escape character. -/
def escByte : Char → Option Nat
  | '0' => some 0
  | 'a' => some 7
  | 'b' => some 8
  | 't' => some 9
  | 'v' => some 11
  | 'f' => some 12
  | 'r' => some 13
  | 'n' => some 10
  | _ => none

/-- The surrogate combination line of `util::json_string_to_utf8`
(`codepoint = ((codepoint - 0xd800) << 10) + ((u32)codepoint - 0xdc00) + 0x10000`),
which uses `codepoint` where `extra` was intended; `codepoint - 0xdc00`
wraps around in `u32` arithmetic. -/
def surrCombine (cp : Nat) : Nat :=
  ((cp - 0xd800) * 1024 + (cp + 4294967296 - 0xdc00) % 4294967296 + 0x10000) % 4294967296

/-- UTF-8 encoding of a codepoint below `0x110000`, as written byte by byte
in the `if (out)` branches of `util::json_string_to_utf8`. -/
def utf8Enc (cp : Nat) : List Nat :=
  if cp < 0x80 then [cp]
  else if cp < 0x800 then [cp / 64 % 32 + 0xc0, cp % 64 + 0x80]
  else if cp < 0x10000 then [cp / 4096 % 16 + 0xe0, cp / 64 % 64 + 0x80, cp % 64 + 0x80]
  else [cp / 262144 % 8 + 0xf0, cp / 4096 % 64 + 0x80, cp / 64 % 64 + 0x80, cp % 64 + 0x80]

/-- The byte count the measure-only mode adds for one decoded codepoint
(`1 + (cp >= 0x80) + (cp >= 0x800) + (cp >= 0x10000)`). -/
def mLen (cp : Nat) : Nat :=
  1 + (if 0x80 ≤ cp then 1 else 0) + (if 0x800 ≤ cp then 1 else 0) +
    (if 0x10000 ≤ cp then 1 else 0)

/-- One iteration of the `while (p < end)` loop of
`util::json_string_to_utf8` with a non-null destination: the bytes written
for the leading character (or escape) and the remaining input.  `none` models
an assertion firing (`p < end` inside a `\u` escape, a non-hex digit, an
out-of-range codepoint, an unknown escape character) or the unchecked
`ch = *p` read past the end after a trailing backslash.  The `\u` branch
reads four hex digits one by one (the four-element pattern); a high
surrogate then skips two bytes unchecked (`p += 2`) and reads four more hex
digits (whose value `extra` is then ignored by the buggy combination line,
see `surrCombine`). -/
def jsStepFill : List Char → Option (List Nat × List Char)
  | [] => none
  | c :: rest =>
    if c = '\\' then
      match rest with
      | [] => none
      | e :: rest2 =>
        if e = '\\' ∨ e = '/' ∨ e = '"' then some ([e.toNat], rest2)
        else if e = 'u' then
          match rest2 with
          | a :: b :: c2 :: d :: rest3 =>
            match hexDigitValA a, hexDigitValA b, hexDigitValA c2, hexDigitValA d with
            | some va, some vb, some vc, some vd =>
              let cp := ((va * 16 + vb) * 16 + vc) * 16 + vd
              if 0xd800 ≤ cp ∧ cp ≤ 0xdbff then
                match rest3 with
                | _ :: _ :: a2 :: b2 :: c3 :: d2 :: rest5 =>
                  match hexDigitValA a2, hexDigitValA b2, hexDigitValA c3, hexDigitValA d2 with
                  | some _, some _, some _, some _ =>
                    if surrCombine cp < 0x110000 then
                      some (utf8Enc (surrCombine cp), rest5)
                    else none
                  | _, _, _, _ => none
                | _ => none
              else
                if cp < 0x110000 then some (utf8Enc cp, rest3) else none
            | _, _, _, _ => none
          | _ => none
        else
          match escByte e with
          | some b => some ([b], rest2)
          | none => none
    else some ([c.toNat], rest)

/-- One iteration of the same loop with a null destination: the byte count
accumulated in `len` for the leading character, and the remaining input.
Control flow (including every assertion) is identical to the fill mode; only
the writes become counts. -/
def jsStepMeasure : List Char → Option (Nat × List Char)
  | [] => none
  | c :: rest =>
    if c = '\\' then
      match rest with
      | [] => none
      | e :: rest2 =>
        if e = '\\' ∨ e = '/' ∨ e = '"' then some (1, rest2)
        else if e = 'u' then
          match rest2 with
          | a :: b :: c2 :: d :: rest3 =>
            match hexDigitValA a, hexDigitValA b, hexDigitValA c2, hexDigitValA d with
            | some va, some vb, some vc, some vd =>
              let cp := ((va * 16 + vb) * 16 + vc) * 16 + vd
              if 0xd800 ≤ cp ∧ cp ≤ 0xdbff then
                match rest3 with
                | _ :: _ :: a2 :: b2 :: c3 :: d2 :: rest5 =>
                  match hexDigitValA a2, hexDigitValA b2, hexDigitValA c3, hexDigitValA d2 with
                  | some _, some _, some _, some _ =>
                    if surrCombine cp < 0x110000 then
                      some (mLen (surrCombine cp), rest5)
                    else none
                  | _, _, _, _ => none
                | _ => none
              else
                if cp < 0x110000 then some (mLen cp, rest3) else none
            | _, _, _, _ => none
          | _ => none
        else
          match escByte e with
          | some _ => some (1, rest2)
          | none => none
    else some (1, rest)

/-- `util::json_string_to_utf8` with a non-null destination: the whole byte
list written, as the fuelled iteration of `jsStepFill` (each step consumes at
least one character, so the wrapper's fuel always suffices). -/
def jsFillF : Nat → List Char → Option (List Nat)
  | 0, _ => none
  | fl + 1, cs =>
    match cs with
    | [] => some []
    | c :: rest =>
      match jsStepFill (c :: rest) with
      | none => none
      | some (bs, rest2) => (jsFillF fl rest2).map (fun l => bs ++ l)

/-- `util::json_string_to_utf8`, fill mode. -/
def jsFill (cs : List Char) : Option (List Nat) := jsFillF (cs.length + 1) cs

/-- `util::json_string_to_utf8` with a null destination: the whole byte
count accumulated in `len`, as the fuelled iteration of `jsStepMeasure`. -/
def jsMeasureF : Nat → List Char → Option Nat
  | 0, _ => none
  | fl + 1, cs =>
    match cs with
    | [] => some 0
    | c :: rest =>
      match jsStepMeasure (c :: rest) with
      | none => none
      | some (n, rest2) => (jsMeasureF fl rest2).map (fun m => n + m)

/-- `util::json_string_to_utf8`, measure mode. -/
def jsMeasure (cs : List Char) : Option Nat := jsMeasureF (cs.length + 1) cs

/-! ### Node model -/

/-- `JsonNode::IsKey`. -/
def JsonNode.IsKey (n : JsonNode) : Bool := n.type = JsonNodeType.JSON_KEY

/-- `JsonNode::IsInvalid`. -/
def JsonNode.IsInvalid (n : JsonNode) : Bool :=
  n.type = JsonNodeType.INVALID ∨ n.type = JsonNodeType.SYNTACTIC_ERROR

/-- `JsonNode::IsValue` (`!IsKey() && !IsInvalid()`). -/
def JsonNode.IsValue (n : JsonNode) : Bool := !n.IsKey && !n.IsInvalid

/-- `JsonNode::IsArray`. -/
def JsonNode.IsArray (n : JsonNode) : Bool := n.type = JsonNodeType.JSON_ARRAY

/-- `JsonNode::IsObject`. -/
def JsonNode.IsObject (n : JsonNode) : Bool := n.type = JsonNodeType.JSON_OBJECT

/-- `JsonNode::IsComplex`. -/
def JsonNode.IsComplex (n : JsonNode) : Bool := n.IsArray || n.IsObject

/-- `JsonNode::IsEOF`. -/
def JsonNode.IsEOF (n : JsonNode) : Bool := n.type = JsonNodeType.JSON_EOF

/-- `JsonNode::GetFirst`: the node at `this + 1`, modelled on the node's
buffer index `i`. -/
def JsonNode.GetFirstIdx (n : JsonNode) (i : Nat) : Option Nat :=
  if n.IsComplex ∧ n.count ≠ 0 then some (i + 1) else none

/-- `JsonNode::GetValue`: `IsKey() ? this + 1 : (IsValue() ? this : nullptr)`,
modelled on the node's buffer index `i`. -/
def JsonNode.GetValueIdx (n : JsonNode) (i : Nat) : Option Nat :=
  if n.IsKey then some (i + 1) else if n.IsValue then some i else none

/-- `JsonNode::GetAsString` in the default (assertions-active) build:
`JSON_ASSERT(dest != nullptr)` exits the program (`none`) for a null
destination; otherwise, for a string or key node, the interior of the stored
text (quotes stripped) is converted and the written byte count returned. -/
def JsonNode.GetAsStringM (n : JsonNode) (destIsNull : Bool) : Option Nat :=
  if destIsNull then none
  else if n.type = JsonNodeType.JSON_STRING ∨ n.type = JsonNodeType.JSON_KEY then
    (jsFill ((n.sv.drop 1).take (n.sv.length - 2))).map List.length
  else some 0

/-- The `JsonNode(const JsonToken&)` constructor: copy the text view, clear
`next`, translate the token type (containers start with `count = 0`; the
structural token types are unreachable there — `JSON_ASSERT(false)`). -/
def nodeTypeOfToken : JsonTokenType → JsonNodeType
  | JsonTokenType.JSON_ARRAY_BEGIN => JsonNodeType.JSON_ARRAY
  | JsonTokenType.JSON_OBJECT_BEGIN => JsonNodeType.JSON_OBJECT
  | JsonTokenType.JSON_STRING => JsonNodeType.JSON_STRING
  | JsonTokenType.JSON_KEY => JsonNodeType.JSON_KEY
  | JsonTokenType.JSON_TRUE => JsonNodeType.JSON_TRUE
  | JsonTokenType.JSON_FALSE => JsonNodeType.JSON_FALSE
  | JsonTokenType.JSON_NULL => JsonNodeType.JSON_NULL
  | JsonTokenType.JSON_NUMBER => JsonNodeType.JSON_NUMBER
  | JsonTokenType.JSON_FLOAT_HEX => JsonNodeType.JSON_FLOAT_HEX
  | JsonTokenType.JSON_DOUBLE_HEX => JsonNodeType.JSON_DOUBLE_HEX
  | JsonTokenType.INVALID => JsonNodeType.INVALID
  | JsonTokenType.SYNTACTIC_ERROR => JsonNodeType.SYNTACTIC_ERROR
  | JsonTokenType.JSON_EOF => JsonNodeType.JSON_EOF
  | _ => JsonNodeType.INVALID

/-- `JsonNode::JsonNode(const JsonToken&)`. -/
def JsonNode.ofToken (t : JsonToken) : JsonNode :=
  { type := nodeTypeOfToken t.type, sv := t.text, count := 0, next := none }

/-! ### Builder (`JsonParser`) -/

/-- The parser state: input and scan position (`m_begin`/`m_pos`/`m_end`),
error code, the filled portion of the node buffer (`m_nodeBuffer` up to
`m_nodeCount`) and its capacity (`m_tokenCapacity`).  The textual error log
is diagnostic only and is not modelled. -/
structure PState where
  input : List Char
  pos : Nat
  err : JsonErrorCode
  nodes : List JsonNode
  cap : Nat
deriving DecidableEq, Repr

/-- Replace the node at index `i` by `f` of it (a write through a `JsonNode*`
into the buffer); leaves the list unchanged when `i` is out of range. -/
def listModify : List JsonNode → Nat → (JsonNode → JsonNode) → List JsonNode
  | [], _, _ => []
  | a :: t, 0, f => f a :: t
  | a :: t, n + 1, f => a :: listModify t n f

/-- `m_currentToken = getNextToken()` as a state step. -/
def getNextTokenS (s : PState) : JsonToken × PState :=
  let r := getNextToken s.input s.pos
  (r.1, { s with pos := r.2 })

/-- `JsonParser::pushNode`: append a node built from the current token when
there is room; otherwise set `CAPACITY_EXCEEDED` and fail without writing. -/
def pushNode (tok : JsonToken) (s : PState) : Bool × PState :=
  if s.nodes.length < s.cap then
    (true, { s with nodes := s.nodes ++ [JsonNode.ofToken tok] })
  else
    (false, { s with err := JsonErrorCode.CAPACITY_EXCEEDED })

/-- `JsonParser::expect`: on a mismatch, a non-`INVALID` token becomes a
`SYNTACTIC_ERROR` (error code `SYNTACTIC_ERRORS`), an `INVALID` token sets
`INVALID_TOKENS`; either way the (possibly retyped) token is pushed. -/
def expect (tok : JsonToken) (cond : Bool) (s : PState) : Bool × PState :=
  if cond then (true, s)
  else
    let r : JsonToken × PState :=
      if tok.type ≠ JsonTokenType.INVALID then
        ({ tok with type := JsonTokenType.SYNTACTIC_ERROR },
          { s with err := JsonErrorCode.SYNTACTIC_ERRORS })
      else (tok, { s with err := JsonErrorCode.INVALID_TOKENS })
    (false, (pushNode r.1 r.2).2)

/-- `++complex_node->count` through the pointer captured by `getLastNode()`,
as a write at the container's buffer index. -/
def incCount (i : Nat) (s : PState) : PState :=
  { s with nodes := listModify s.nodes i (fun nd => { nd with count := nd.count + 1 }) }

/-- `previous->next = last_node_ptr`, as a write at the buffer index `i`. -/
def setNext (i : Nat) (v : Option Nat) (s : PState) : PState :=
  { s with nodes := listModify s.nodes i (fun nd => { nd with next := v }) }

/-- `JsonParser::isPrimitiveValueToken`. -/
def isPrimTok (t : JsonTokenType) : Bool :=
  t = JsonTokenType.JSON_TRUE ∨ t = JsonTokenType.JSON_FALSE ∨
  t = JsonTokenType.JSON_NULL ∨ t = JsonTokenType.JSON_NUMBER ∨
  t = JsonTokenType.JSON_STRING ∨ t = JsonTokenType.JSON_FLOAT_HEX ∨
  t = JsonTokenType.JSON_DOUBLE_HEX

mutual

/-- `JsonParser::parseArray`: read the first token; an immediate `]` leaves
the empty container; otherwise run the element loop with `complex_node` at
index `getLastNode()` (= current count − 1) and no previous element. -/
def parseArray : Nat → PState → Bool × PState
  | 0, s => (false, s)
  | fuel + 1, s =>
    let r := getNextTokenS s
    if r.1.type = JsonTokenType.JSON_ARRAY_END then (true, r.2)
    else parseArrayLoop fuel (r.2.nodes.length - 1) none r.1 r.2

/-- The `while (result && m_pos < m_end)` body of `JsonParser::parseArray`:
expect a value token, push it, bump the container count, thread the element
chain, recurse into nested containers, then `]` or `,`. -/
def parseArrayLoop : Nat → Nat → Option Nat → JsonToken → PState → Bool × PState
  | 0, _, _, _, s => (false, s)
  | fuel + 1, cIdx, prev, tok, s =>
    if ¬ s.pos < s.input.length then (true, s)
    else
      let isP := isPrimTok tok.type
      let isA := tok.type = JsonTokenType.JSON_ARRAY_BEGIN
      let isO := tok.type = JsonTokenType.JSON_OBJECT_BEGIN
      let e1 := expect tok (isP || isA || isO) s
      if ¬ e1.1 then (false, e1.2)
      else
        let p1 := pushNode tok e1.2
        if ¬ p1.1 then (false, p1.2)
        else
          let s3 := incCount cIdx p1.2
          let lastI := s3.nodes.length - 1
          let s4 := match prev with
            | some q => setNext q (some lastI) s3
            | none => s3
          let r5 : Bool × PState :=
            if isA then parseArray fuel s4
            else if isO then parseObject fuel s4
            else (true, s4)
          if ¬ r5.1 then (false, r5.2)
          else
            let t6 := getNextTokenS r5.2
            if t6.1.type = JsonTokenType.JSON_ARRAY_END then (true, t6.2)
            else
              let e7 := expect t6.1 (t6.1.type = JsonTokenType.JSON_COMMA) t6.2
              if ¬ e7.1 then (false, e7.2)
              else
                let t8 := getNextTokenS e7.2
                parseArrayLoop fuel cIdx (some lastI) t8.1 t8.2

/-- `JsonParser::parseObject`: like `parseArray`, with an immediate `}` for
the empty object. -/
def parseObject : Nat → PState → Bool × PState
  | 0, s => (false, s)
  | fuel + 1, s =>
    let r := getNextTokenS s
    if r.1.type = JsonTokenType.JSON_OBJECT_END then (true, r.2)
    else parseObjectLoop fuel (r.2.nodes.length - 1) none none r.1 r.2

/-- The `while (result && m_pos < m_end)` body of `JsonParser::parseObject`:
expect a string (retyped to a key), push it and thread the key chain; expect
`:` and a value token, push the value, bump the pair count and thread the
value chain; recurse into nested containers; then `}` or `,`. -/
def parseObjectLoop : Nat → Nat → Option Nat → Option Nat → JsonToken → PState → Bool × PState
  | 0, _, _, _, _, s => (false, s)
  | fuel + 1, cIdx, prevK, prevV, tok, s =>
    if ¬ s.pos < s.input.length then (true, s)
    else
      let e1 := expect tok (tok.type = JsonTokenType.JSON_STRING) s
      if ¬ e1.1 then (false, e1.2)
      else
        let tokK : JsonToken := { tok with type := JsonTokenType.JSON_KEY }
        let p1 := pushNode tokK e1.2
        if ¬ p1.1 then (false, p1.2)
        else
          let lastK := p1.2.nodes.length - 1
          let s3 := match prevK with
            | some q => setNext q (some lastK) p1.2
            | none => p1.2
          let t4 := getNextTokenS s3
          let e4 := expect t4.1 (t4.1.type = JsonTokenType.JSON_COLON) t4.2
          if ¬ e4.1 then (false, e4.2)
          else
            let t5 := getNextTokenS e4.2
            let isP := isPrimTok t5.1.type
            let isA := t5.1.type = JsonTokenType.JSON_ARRAY_BEGIN
            let isO := t5.1.type = JsonTokenType.JSON_OBJECT_BEGIN
            let e5 := expect t5.1 (isP || isA || isO) t5.2
            if ¬ e5.1 then (false, e5.2)
            else
              let p6 := pushNode t5.1 e5.2
              if ¬ p6.1 then (false, p6.2)
              else
                let s7 := incCount cIdx p6.2
                let lastV := s7.nodes.length - 1
                let s8 := match prevV with
                  | some q => setNext q (some lastV) s7
                  | none => s7
                let r9 : Bool × PState :=
                  if isA then parseArray fuel s8
                  else if isO then parseObject fuel s8
                  else (true, s8)
                if ¬ r9.1 then (false, r9.2)
                else
                  let t10 := getNextTokenS r9.2
                  if t10.1.type = JsonTokenType.JSON_OBJECT_END then (true, t10.2)
                  else
                    let e11 := expect t10.1 (t10.1.type = JsonTokenType.JSON_COMMA) t10.2
                    if ¬ e11.1 then (false, e11.2)
                    else
                      let t12 := getNextTokenS e11.2
                      parseObjectLoop fuel cIdx (some lastK) (some lastV) t12.1 t12.2

/-- The `while (loop_result && m_pos < m_end)` loop of `JsonParser::Parse`:
each iteration expects an array or object opener, pushes it (the push result
is discarded, as in the source) and parses the container. -/
def parseTopLoop : Nat → PState → Bool × PState
  | 0, s => (false, s)
  | fuel + 1, s =>
    if ¬ s.pos < s.input.length then (true, s)
    else
      let r := getNextTokenS s
      let isA := r.1.type = JsonTokenType.JSON_ARRAY_BEGIN
      let isO := r.1.type = JsonTokenType.JSON_OBJECT_BEGIN
      let e1 := expect r.1 (isA || isO) r.2
      if ¬ e1.1 then (false, e1.2)
      else
        let s2 := (pushNode r.1 e1.2).2
        let r3 : Bool × PState :=
          if isA then parseArray fuel s2 else parseObject fuel s2
        if ¬ r3.1 then (false, r3.2) else parseTopLoop fuel r3.2

end

/-- `JsonParser::Parse` on a fresh buffer (the `SetUp` state followed by the
parse): skip leading whitespace, run the root loop, and on success push the
final token (always end-of-input, since the loop only succeeds once `m_pos`
reached `m_end`) and mark the document valid. -/
def Parse (input : List Char) (cap : Nat) : PState :=
  let s0 : PState :=
    { input := input, pos := skipWs input 0, err := JsonErrorCode.NOT_DONE,
      nodes := [], cap := cap }
  let r := parseTopLoop (2 * input.length + 16) s0
  if r.1 then
    let t := getNextTokenS r.2
    let p := pushNode t.1 t.2
    if p.1 then { p.2 with err := JsonErrorCode.VALID_JSON } else p.2
  else r.2

/-- The observable effect of running a parse step on a full buffer: the
buffer contents and capacity are untouched, and a `CAPACITY_EXCEEDED` status
is preserved. -/
def CapFrozen (s : PState) (r : Bool × PState) : Prop :=
  r.2.cap = s.cap ∧ r.2.nodes = s.nodes ∧
  (s.err = JsonErrorCode.CAPACITY_EXCEEDED →
    r.2.err = JsonErrorCode.CAPACITY_EXCEEDED)

/-! ### Path resolver (`get_value_node`) -/

/-- Result of a `get_value_node` call: a node (a non-null `JsonNode*`, as a
buffer index), the null pointer, or undefined behaviour (a dereference of the
null pointer or of an out-of-bounds pointer, or a failed entry assertion). -/
inductive GVN where
  | found (i : Nat)
  | notFound
  | crash
deriving DecidableEq, Repr

/-- The `for (j = 0; j < idx; j++) current_node = current_node->GetNext()`
walk: `none` models an out-of-bounds node read; `some none` means the chain
ran out (`current_node == nullptr` after the loop). -/
def walkNexts (buf : List JsonNode) : Nat → Nat → Option (Option Nat)
  | 0, c => some (some c)
  | j + 1, c =>
    match buf[c]? with
    | none => none
    | some nd =>
      match nd.next with
      | none => some none
      | some nx => walkNexts buf j nx

/-- The key-matching inner loop of `get_value_node`
(`while (p < end && !current_node->IsEOF() && current_node->IsKey())`):
compare the remaining path either with the key's full stored text (quoted
form) or with the text minus its quotes (unquoted form); on a match step to
the key's value (`current_node += 1`), otherwise follow the key chain.
Returns the new path position and current node (`none` = chain exhausted,
i.e. the C++ `current_node == nullptr`); the outer `none` models an
out-of-bounds read or a non-terminating scan. -/
def keyScan (buf : List JsonNode) (path : List Char) :
    Nat → Nat → Nat → Option (Nat × Option Nat)
  | 0, _, _ => none
  | fuel + 1, p, cur =>
    if ¬ p < path.length then some (p, some cur)
    else
      match buf[cur]? with
      | none => none
      | some nd =>
        if nd.type = JsonNodeType.JSON_EOF then some (p, some cur)
        else if ¬ nd.IsKey then some (p, some cur)
        else
          let nodeLength : Int := nd.sv.length
          let len : Int := path.length - p
          if path.getD p c0 = '"' ∧ nodeLength ≤ len ∧
              (path.drop p).take nd.sv.length = nd.sv then
            some (p + nd.sv.length, some (cur + 1))
          else if path.getD p c0 ≠ '"' ∧ nodeLength - 2 ≤ len ∧
              (path.drop p).take (nd.sv.length - 2) = (nd.sv.drop 1).take (nd.sv.length - 2) then
            some (p + (nd.sv.length - 2), some (cur + 1))
          else
            match nd.next with
            | none => some (p, none)
            | some nx => keyScan buf path fuel p nx

/-- The main loop of `get_value_node`
(`while (p < end && !current_node->IsEOF() && current_node != nullptr)`).
Note the loop condition dereferences `current_node` *before* the null test:
reaching the top of the loop with a null `current_node` and path left to
consume is undefined behaviour, modelled as `GVN.crash`. -/
def gvnLoop (buf : List JsonNode) (path : List Char) :
    Nat → Nat → Option Nat → GVN
  | 0, _, _ => GVN.crash
  | fuel + 1, p, cur =>
    if ¬ p < path.length then
      match cur with
      | none => GVN.notFound
      | some c => GVN.found c
    else
      match cur with
      | none => GVN.crash
      | some c =>
        match buf[c]? with
        | none => GVN.crash
        | some nd =>
          if nd.type = JsonNodeType.JSON_EOF then GVN.found c
          else if path.getD p c0 = '[' ∧ nd.IsArray then
            let count := nd.count
            let p1 := p + 1
            let first := c + 1
            if count = 0 then GVN.notFound
            else
              let sign := p1 < path.length ∧ path.getD p1 c0 = '-'
              let p2 := if sign then p1 + 1 else p1
              let r := to_u64M (path.drop p2)
              if r.1 = 0 then GVN.notFound
              else
                let p3 := p2 + r.1
                let idx0 := if r.2 ≥ count then r.2 % count else r.2
                let idx := if sign ∧ idx0 ≠ 0 then count - idx0 else idx0
                if p3 < path.length ∧ path.getD p3 c0 = ']' then
                  match walkNexts buf idx first with
                  | none => GVN.crash
                  | some cur2 => gvnLoop buf path fuel (p3 + 1) cur2
                else GVN.notFound
          else if path.getD p c0 = '.' ∧ nd.IsObject then
            let count := nd.count
            let p1 := p + 1
            let first := c + 1
            if count = 0 then GVN.notFound
            else
              match keyScan buf path (buf.length + 1) p1 first with
              | none => GVN.crash
              | some (p2, cur2) => gvnLoop buf path fuel p2 cur2
          else GVN.notFound

/-- The index computation of an `[i]` step in `get_value_node`
(`idx = (idx >= count) ? (idx % count) : idx;`
`idx = (sign && idx != 0) ? (count - idx) : idx;`). -/
def finalIdx (sign : Bool) (i c : Nat) : Nat :=
  let idx0 := if i ≥ c then i % c else i
  if sign ∧ idx0 ≠ 0 then c - idx0 else idx0

/-- `get_value_node(node_begin, path, path_string_length)`: assert the start
node is an array or object (reading it; `GVN.crash` models an out-of-bounds
start or a failed assertion), then run the resolver loop. -/
def get_value_node (buf : List JsonNode) (start : Nat) (path : List Char) : GVN :=
  match buf[start]? with
  | none => GVN.crash
  | some nd =>
    if nd.IsArray ∨ nd.IsObject then
      gvnLoop buf path (path.length + 1) 0 (some start)
    else GVN.crash

/-! ### The flattening invariant (claim C3)

`Sub buf i j` states that buffer slots `[i, j)` hold one complete value
subtree in pre-order, rooted at `i`: a non-empty container at `i` is
immediately followed (slot `i + 1`) by its first child, the container's
stored `count` equals its number of direct children (elements, resp.
key/value pairs), consecutive array elements / object keys / values-of-keys
are linked by `next` in source order, and the last node of each chain has
`next = none`.  `ElemsLast buf k j n q` is a chain of `n` completed element
subtrees filling `[k, j)` whose last root is `q` (its `next` is constrained
by the enclosing `Sub`); `PairsLast` likewise for key/value pairs, where each
value sits at its key's index + 1.  Nothing is said about a subtree root's
own `next`, which is owned by the enclosing chain. -/

/-- The node kinds a primitive value token can produce. -/
def isScalarNT (t : JsonNodeType) : Bool :=
  t = JsonNodeType.JSON_TRUE ∨ t = JsonNodeType.JSON_FALSE ∨
  t = JsonNodeType.JSON_NULL ∨ t = JsonNodeType.JSON_NUMBER ∨
  t = JsonNodeType.JSON_STRING ∨ t = JsonNodeType.JSON_FLOAT_HEX ∨
  t = JsonNodeType.JSON_DOUBLE_HEX

mutual

inductive Sub : List JsonNode → Nat → Nat → Prop where
  | scalar {buf : List JsonNode} {i : Nat} {nd : JsonNode} :
      buf[i]? = some nd → isScalarNT nd.type = true → Sub buf i (i + 1)
  | arr0 {buf : List JsonNode} {i : Nat} {nd : JsonNode} :
      buf[i]? = some nd → nd.type = JsonNodeType.JSON_ARRAY → nd.count = 0 →
      Sub buf i (i + 1)
  | arrN {buf : List JsonNode} {i j n q : Nat} {nd nq : JsonNode} :
      buf[i]? = some nd → nd.type = JsonNodeType.JSON_ARRAY → nd.count = n →
      ElemsLast buf (i + 1) j n q → buf[q]? = some nq → nq.next = none →
      Sub buf i j
  | obj0 {buf : List JsonNode} {i : Nat} {nd : JsonNode} :
      buf[i]? = some nd → nd.type = JsonNodeType.JSON_OBJECT → nd.count = 0 →
      Sub buf i (i + 1)
  | objN {buf : List JsonNode} {i j n q : Nat} {nd nk nv : JsonNode} :
      buf[i]? = some nd → nd.type = JsonNodeType.JSON_OBJECT → nd.count = n →
      PairsLast buf (i + 1) j n q → buf[q]? = some nk → nk.next = none →
      buf[q + 1]? = some nv → nv.next = none →
      Sub buf i j

inductive ElemsLast : List JsonNode → Nat → Nat → Nat → Nat → Prop where
  | single {buf : List JsonNode} {k j : Nat} :
      Sub buf k j → ElemsLast buf k j 1 k
  | snoc {buf : List JsonNode} {k j n q j2 : Nat} {nq : JsonNode} :
      ElemsLast buf k j n q → buf[q]? = some nq → nq.next = some j →
      Sub buf j j2 → ElemsLast buf k j2 (n + 1) j

inductive PairsLast : List JsonNode → Nat → Nat → Nat → Nat → Prop where
  | single {buf : List JsonNode} {k j : Nat} {nk : JsonNode} :
      buf[k]? = some nk → nk.type = JsonNodeType.JSON_KEY → Sub buf (k + 1) j →
      PairsLast buf k j 1 k
  | snoc {buf : List JsonNode} {k j n q j2 : Nat} {nq nv nk2 : JsonNode} :
      PairsLast buf k j n q →
      buf[q]? = some nq → nq.next = some j →
      buf[q + 1]? = some nv → nv.next = some (j + 1) →
      buf[j]? = some nk2 → nk2.type = JsonNodeType.JSON_KEY →
      Sub buf (j + 1) j2 → PairsLast buf k j2 (n + 1) j

end

/-- A partially built element chain closed off: `n` elements in `[k, j)`, the
last root's `next` still `none` (or no elements at all). -/
def ElemsAt (buf : List JsonNode) (k j n : Nat) : Prop :=
  (n = 0 ∧ k = j) ∨
  ∃ q nq, ElemsLast buf k j n q ∧ buf[q]? = some nq ∧ nq.next = none

/-- The object analogue of `ElemsAt`: `n` closed-off pairs in `[k, j)`. -/
def PairsAt (buf : List JsonNode) (k j n : Nat) : Prop :=
  (n = 0 ∧ k = j) ∨
  ∃ q nk nv, PairsLast buf k j n q ∧ buf[q]? = some nk ∧ nk.next = none ∧
    buf[q + 1]? = some nv ∧ nv.next = none

/-- A sequence of complete root subtrees filling `[k, j)` (the top-level loop
of `Parse` accepts any number of them). -/
inductive Roots : List JsonNode → Nat → Nat → Prop where
  | nil (buf : List JsonNode) (k : Nat) : Roots buf k k
  | cons {buf : List JsonNode} {k m j : Nat} :
      Sub buf k m → Roots buf m j → Roots buf k j


/-- `buf'` agrees with `buf` on every slot in `[lo, hi)`. -/
def bufEqOn (buf buf' : List JsonNode) (lo hi : Nat) : Prop :=
  ∀ m, lo ≤ m → m < hi → buf'[m]? = buf[m]?

/-- Slot `i` of `buf'` holds the same node as in `buf` except possibly for
its `next` pointer (the field owned by the enclosing sibling chain). -/
def nodeModNext (buf buf' : List JsonNode) (i : Nat) : Prop :=
  ∀ a, buf[i]? = some a → ∃ b, buf'[i]? = some b ∧ b.type = a.type ∧
    b.sv = a.sv ∧ b.count = a.count

/-- `Sub` survives any rewrite of the buffer that keeps `(i, j)` intact and
changes at most the root's `next`. -/
def SubStableP (buf : List JsonNode) (i j : Nat) : Prop :=
  ∀ buf', bufEqOn buf buf' (i + 1) j → nodeModNext buf buf' i → Sub buf' i j

/-- `ElemsLast` survives any rewrite keeping `[k, j)` intact except at most
the last root's `next`. -/
def ElemsStableP (buf : List JsonNode) (k j n q : Nat) : Prop :=
  ∀ buf', (∀ m, k ≤ m → m < j → m ≠ q → buf'[m]? = buf[m]?) →
    nodeModNext buf buf' q → ElemsLast buf' k j n q

/-- `PairsLast` survives any rewrite keeping `[k, j)` intact except at most
the `next` of the last key (slot `q`) and of the last value (slot `q + 1`). -/
def PairsStableP (buf : List JsonNode) (k j n q : Nat) : Prop :=
  ∀ buf', (∀ m, k ≤ m → m < j → m ≠ q → m ≠ q + 1 → buf'[m]? = buf[m]?) →
    nodeModNext buf buf' q → nodeModNext buf buf' (q + 1) → PairsLast buf' k j n q

/-- Entry invariant of the `parseArray` element loop: `cIdx` holds the array
being filled and the region above it holds the elements threaded so far (none
yet, or a chain whose count matches the array's and whose last root is still
unlinked). -/
def ArrEntry (s : PState) (cIdx : Nat) (prev : Option Nat) : Prop :=
  ∃ nd, s.nodes[cIdx]? = some nd ∧ nd.type = JsonNodeType.JSON_ARRAY ∧
    ((prev = none ∧ nd.count = 0 ∧ cIdx + 1 = s.nodes.length) ∨
     (∃ q nq, prev = some q ∧
       ElemsLast s.nodes (cIdx + 1) s.nodes.length nd.count q ∧
       s.nodes[q]? = some nq ∧ nq.next = none))

/-- What a successful array-loop run guarantees: the buffer only grew, slots
below the container are untouched, the container keeps its identity (only its
count moved), and the region above it is a completed element chain matching
the stored count (or stayed empty). -/
def ArrPost (s r : PState) (cIdx : Nat) : Prop :=
  s.nodes.length ≤ r.nodes.length ∧ r.cap = s.cap ∧ r.input = s.input ∧
  (∀ m, m < cIdx → r.nodes[m]? = s.nodes[m]?) ∧
  ∃ nd nd', s.nodes[cIdx]? = some nd ∧ r.nodes[cIdx]? = some nd' ∧
    nd'.type = nd.type ∧ nd'.sv = nd.sv ∧ nd'.next = nd.next ∧
    ((nd'.count = 0 ∧ cIdx + 1 = r.nodes.length) ∨
     (∃ q nq, ElemsLast r.nodes (cIdx + 1) r.nodes.length nd'.count q ∧
       r.nodes[q]? = some nq ∧ nq.next = none))

/-- Entry invariant of the `parseObject` pair loop (the last pair's key sits
at `q`, its value subtree starts at `q + 1`, both still unlinked). -/
def ObjEntry (s : PState) (cIdx : Nat) (prevK prevV : Option Nat) : Prop :=
  ∃ nd, s.nodes[cIdx]? = some nd ∧ nd.type = JsonNodeType.JSON_OBJECT ∧
    ((prevK = none ∧ prevV = none ∧ nd.count = 0 ∧ cIdx + 1 = s.nodes.length) ∨
     (∃ q nk nv, prevK = some q ∧ prevV = some (q + 1) ∧
       PairsLast s.nodes (cIdx + 1) s.nodes.length nd.count q ∧
       s.nodes[q]? = some nk ∧ nk.next = none ∧
       s.nodes[q + 1]? = some nv ∧ nv.next = none))

/-- The object analogue of `ArrPost`. -/
def ObjPost (s r : PState) (cIdx : Nat) : Prop :=
  s.nodes.length ≤ r.nodes.length ∧ r.cap = s.cap ∧ r.input = s.input ∧
  (∀ m, m < cIdx → r.nodes[m]? = s.nodes[m]?) ∧
  ∃ nd nd', s.nodes[cIdx]? = some nd ∧ r.nodes[cIdx]? = some nd' ∧
    nd'.type = nd.type ∧ nd'.sv = nd.sv ∧ nd'.next = nd.next ∧
    ((nd'.count = 0 ∧ cIdx + 1 = r.nodes.length) ∨
     (∃ q nk nv, PairsLast r.nodes (cIdx + 1) r.nodes.length nd'.count q ∧
       r.nodes[q]? = some nk ∧ nk.next = none ∧
       r.nodes[q + 1]? = some nv ∧ nv.next = none))

/-- What a successful container parse (`parseArray`/`parseObject`) guarantees
to its caller: growth, prefix preservation, the root keeps type/text/next,
and the slice from the root to the end of the buffer is one complete subtree. -/
def SubPost (s r : PState) (root : Nat) : Prop :=
  s.nodes.length ≤ r.nodes.length ∧ r.cap = s.cap ∧ r.input = s.input ∧
  (∀ m, m < root → r.nodes[m]? = s.nodes[m]?) ∧
  (∀ a, s.nodes[root]? = some a → ∃ b, r.nodes[root]? = some b ∧
    b.type = a.type ∧ b.sv = a.sv ∧ b.next = a.next) ∧
  Sub r.nodes root r.nodes.length

/-! ### A declarative form of the string scanner (claim C8) -/

/-- Count the leading hex digits of `cs`, up to `k`. -/
def hexTake : List Char → Nat → Nat
  | _, 0 => 0
  | [], _ + 1 => 0
  | c :: cs, k + 1 => if isHexDigitCh c then 1 + hexTake cs k else 0

/-- The number of interior bytes the string scan consumes before halting,
as a recursion over the bytes after the opening quote.  The scan halts at an
unescaped `"`; at a control byte (`< 0x20`), a raw `/`, or the byte `0xFF`
(counting none of them); after a two-byte recognized escape it continues; a
`\u` continues after up to four hex digits; an unrecognized escape halts
after the backslash alone; any other byte is consumed. -/
def strStopF : Nat → List Char → Nat
  | 0, _ => 0
  | fl + 1, cs =>
    match cs with
    | [] => 0
    | c :: cs2 =>
      let b := c.toNat
      if b = 0x22 then 0
      else if b < 0x20 ∨ b = 0x2F then 0
      else if b = 0x5C then
        match cs2 with
        | [] => 1
        | e :: cs3 =>
          if isEscCh e then 2 + strStopF fl cs3
          else if e = 'u' then
            let h := hexTake cs3 4
            2 + h + strStopF fl (cs3.drop h)
          else 1
      else if b < 0xFF then 1 + strStopF fl cs2
      else 0

/-- The interior scan-stop offset with enough fuel for its input. -/
def strStop (cs : List Char) : Nat := strStopF (cs.length + 1) cs

/-- Whether the scan of the interior `cs` halts on a closing quote. -/
def strOk (cs : List Char) : Bool :=
  match cs.drop (strStop cs) with
  | '"' :: _ => true
  | _ => false

/-! ### Concrete buffers used by the claims' examples -/

/-- The parsed form of `[1,2]` (a two-element array document). -/
def demoArr2 : List JsonNode := [
  { type := JsonNodeType.JSON_ARRAY, sv := ['['], count := 2, next := none },
  { type := JsonNodeType.JSON_NUMBER, sv := ['1'], count := 0, next := some 2 },
  { type := JsonNodeType.JSON_NUMBER, sv := ['2'], count := 0, next := none },
  { type := JsonNodeType.JSON_EOF, sv := [], count := 0, next := none } ]

/-- The parsed form of `{"a":1}`. -/
def demoObj1 : List JsonNode := [
  { type := JsonNodeType.JSON_OBJECT, sv := ['{'], count := 1, next := none },
  { type := JsonNodeType.JSON_KEY, sv := ['"', 'a', '"'], count := 0, next := none },
  { type := JsonNodeType.JSON_NUMBER, sv := ['1'], count := 0, next := none },
  { type := JsonNodeType.JSON_EOF, sv := [], count := 0, next := none } ]

/-- The parsed form of `{"a":1,"ab":2}`. -/
def demoObj2 : List JsonNode := [
  { type := JsonNodeType.JSON_OBJECT, sv := ['{'], count := 2, next := none },
  { type := JsonNodeType.JSON_KEY, sv := ['"', 'a', '"'], count := 0, next := some 3 },
  { type := JsonNodeType.JSON_NUMBER, sv := ['1'], count := 0, next := some 4 },
  { type := JsonNodeType.JSON_KEY, sv := ['"', 'a', 'b', '"'], count := 0, next := none },
  { type := JsonNodeType.JSON_NUMBER, sv := ['2'], count := 0, next := none },
  { type := JsonNodeType.JSON_EOF, sv := [], count := 0, next := none } ]

/-- A string node for the text `"ab"`. -/
def demoStrNode : JsonNode :=
  { type := JsonNodeType.JSON_STRING, sv := ['"', 'a', 'b', '"'], count := 0, next := none }

/-! ## Theorems -/

/-- For a decodable codepoint, the byte count the measure mode adds equals
the number of bytes the fill mode writes. -/
theorem utf8Enc_length (cp : Nat) : (utf8Enc cp).length = mLen cp := by
  unfold utf8Enc mLen
  split_ifs <;> simp <;> omega

/-- One loop iteration of `util::json_string_to_utf8` behaves identically in
measure and fill mode: same remaining input, and the count equals the number
of bytes written. -/
theorem jsStep_agree (cs : List Char) :
    jsStepMeasure cs = (jsStepFill cs).map (fun p => (p.1.length, p.2)) := by
  unfold jsStepFill jsStepMeasure
  repeat' first
    | split
    | dsimp only []
  all_goals simp [utf8Enc_length]

/-- At every fuel, the measure-mode iteration computes the length of the
fill-mode iteration's output. -/
theorem jsMF_agree (fl : Nat) : ∀ cs, jsMeasureF fl cs = (jsFillF fl cs).map List.length := by
  induction fl with
  | zero => intro cs; rfl
  | succ fl ih =>
    intro cs
    cases cs with
    | nil => rfl
    | cons c rest =>
      simp only [jsFillF, jsMeasureF, jsStep_agree]
      cases jsStepFill (c :: rest) with
      | none => rfl
      | some p =>
        obtain ⟨bs, rest2⟩ := p
        dsimp only [Option.map]
        rw [ih rest2]
        cases hf : jsFillF fl rest2 <;> simp [hf]

/-- The measure-only mode of `util::json_string_to_utf8` returns exactly the
number of bytes the fill mode writes (both modes share every branch and every
assertion; only writes become counts). -/
theorem jsMeasure_eq_fillLen (cs : List Char) :
    jsMeasure cs = (jsFill cs).map List.length :=
  jsMF_agree (cs.length + 1) cs

/-- C10: `IsValue()` is true exactly when the node's type is not key, not
invalid and not syntactic-error — in particular for array, object and
end-of-input nodes — and therefore `GetValue()` on an end-of-input node or a
container node returns the node itself (`some i` at index `i`) rather than
none. -/
theorem C10_IsValue_GetValue :
    (∀ nd : JsonNode, nd.IsValue = true ↔
      (nd.type ≠ JsonNodeType.JSON_KEY ∧ nd.type ≠ JsonNodeType.INVALID ∧
        nd.type ≠ JsonNodeType.SYNTACTIC_ERROR)) ∧
    (∀ (nd : JsonNode) (i : Nat),
      (nd.type = JsonNodeType.JSON_EOF ∨ nd.type = JsonNodeType.JSON_ARRAY ∨
        nd.type = JsonNodeType.JSON_OBJECT) →
      nd.GetValueIdx i = some i) := by
  constructor
  · intro nd
    cases h : nd.type <;>
      simp [JsonNode.IsValue, JsonNode.IsKey, JsonNode.IsInvalid, h]
  · intro nd i h
    rcases h with h | h | h <;>
      simp [JsonNode.GetValueIdx, JsonNode.IsKey, JsonNode.IsValue, JsonNode.IsInvalid, h]

/-- Witness for C10: `GetValue` on a concrete end-of-input node returns the
node itself. -/
theorem C10_witness :
    JsonNode.GetValueIdx
      { type := JsonNodeType.JSON_EOF, sv := [], count := 0, next := none } 5 = some 5 :=
  C10_IsValue_GetValue.2 _ 5 (Or.inl rfl)

/-- C4 (code bug): `util::hex_to_double` declares its accumulator as
`u32 x`, so after the 16-digit loop `x` holds only the value of the digits
modulo `2 ^ 32`, and the `memcpy` of `sizeof(f64) = 8` bytes out of the
4-byte `x` reads 4 indeterminate bytes for the high half.  Whatever those
garbage bytes are, the bit patterns of the two distinct finite doubles `1.0`
(`0x3FF0000000000000`) and `2.0` (`0x4000000000000000`) decode to the same
result, so decoding cannot reproduce the exact 64-bit pattern for every
finite double. -/
theorem C4_hex_to_double_truncates :
    ∀ garbage : Nat,
      hex_to_double_bits garbage (hex16Token 0x3FF0000000000000) =
        hex_to_double_bits garbage (hex16Token 0x4000000000000000) ∧
      (0x3FF0000000000000 : Nat) ≠ 0x4000000000000000 ∧
      hex_to_double_accum (hex16Token 0x3FF0000000000000) = some 0 := by
  intro g
  refine ⟨rfl, by decide, by decide⟩

/-- C9 (code bug): `JsonNode::GetAsString` begins with
`JSON_ASSERT(dest != nullptr)`, so in the default (assertions-active) build a
null destination terminates the program (`none`) instead of returning the
would-be byte count; the underlying `util::json_string_to_utf8` does support
the measure mode, whose count always equals the byte count of a subsequent
fill call. -/
theorem C9_GetAsString_null_dest :
    JsonNode.GetAsStringM demoStrNode true = none ∧
    JsonNode.GetAsStringM demoStrNode false = some 2 ∧
    (∀ cs : List Char, jsMeasure cs = (jsFill cs).map List.length) :=
  ⟨by decide, by decide, jsMeasure_eq_fillLen⟩

/-- Folding decimal digits from an arbitrary accumulator. -/
theorem foldl_digits (cs : List Char) (a : Nat) :
    cs.foldl (fun x c => x * 10 + (c.toNat - 48)) a = a * 10 ^ cs.length + digitsVal cs := by
  induction cs generalizing a with
  | nil => simp [digitsVal]
  | cons c t ih =>
    have hv : digitsVal (c :: t) = (c.toNat - 48) * 10 ^ t.length + digitsVal t := by
      unfold digitsVal
      simp only [List.foldl_cons]
      simpa using ih (c.toNat - 48)
    simp only [List.foldl_cons, hv, List.length_cons]
    rw [ih (a * 10 + (c.toNat - 48))]
    ring

/-- `digitsVal` unfolded one digit. -/
theorem digitsVal_cons (c : Char) (t : List Char) :
    digitsVal (c :: t) = (c.toNat - 48) * 10 ^ t.length + digitsVal t := by
  unfold digitsVal
  simp only [List.foldl_cons]
  simpa using foldl_digits t (c.toNat - 48)

/-- Members of a `takeWhile` satisfy the predicate. -/
theorem mem_takeWhile_pred {p : Char → Bool} :
    ∀ {l : List Char} {c : Char}, c ∈ l.takeWhile p → p c = true := by
  intro l
  induction l with
  | nil => intro c h; simp [List.takeWhile] at h
  | cons a t ih =>
    intro c h
    rw [List.takeWhile_cons] at h
    by_cases hp : p a
    · simp only [hp, if_pos] at h
      rcases List.mem_cons.mp h with rfl | h2
      · exact hp
      · exact ih h2
    · simp [hp] at h

/-- An all-digit string of length `n` denotes a value below `10 ^ n`. -/
theorem digitsVal_lt (l : List Char) (h : ∀ c ∈ l, isDigitCh c = true) :
    digitsVal l < 10 ^ l.length := by
  induction l with
  | nil => simp [digitsVal]
  | cons c t ih =>
    have hd : c.toNat - 48 ≤ 9 := by
      have := h c (List.mem_cons_self c t)
      simp [isDigitCh] at this
      omega
    have ht := ih (fun x hx => h x (List.mem_cons_of_mem c hx))
    rw [digitsVal_cons, List.length_cons]
    have h1 : (c.toNat - 48) * 10 ^ t.length ≤ 9 * 10 ^ t.length :=
      Nat.mul_le_mul_right _ hd
    have h2 : (10 : Nat) ^ (t.length + 1) = 10 ^ t.length * 10 := pow_succ 10 t.length
    omega

/-- On equal-length all-digit strings, `memcmp > 0` is exactly numeric
greater-than. -/
theorem memOrd_gt_iff : ∀ (as bs : List Char), as.length = bs.length →
    (∀ c ∈ as, isDigitCh c = true) → (∀ c ∈ bs, isDigitCh c = true) →
    (memOrd as bs = Ordering.gt ↔ digitsVal bs < digitsVal as) := by
  intro as
  induction as with
  | nil =>
    intro bs hl _ _
    cases bs with
    | nil => simp [memOrd]
    | cons b u => simp at hl
  | cons a t ih =>
    intro bs hl ha hb
    cases bs with
    | nil => simp at hl
    | cons b u =>
      have hlen : t.length = u.length := by simpa using hl
      have hda : 48 ≤ a.toNat ∧ a.toNat ≤ 57 := by
        have := ha a (List.mem_cons_self a t)
        simp [isDigitCh] at this
        omega
      have hdb : 48 ≤ b.toNat ∧ b.toNat ≤ 57 := by
        have := hb b (List.mem_cons_self b u)
        simp [isDigitCh] at this
        omega
      have hta : ∀ c ∈ t, isDigitCh c = true := fun x hx => ha x (List.mem_cons_of_mem a hx)
      have htb : ∀ c ∈ u, isDigitCh c = true := fun x hx => hb x (List.mem_cons_of_mem b hx)
      have hvt := digitsVal_lt t hta
      have hvu := digitsVal_lt u htb
      rw [hlen] at hvt
      simp only [memOrd]
      rw [digitsVal_cons, digitsVal_cons, hlen]
      by_cases h1 : a.toNat < b.toNat
      · rw [if_pos h1]
        constructor
        · intro hx
          exact absurd hx (by decide)
        · intro hx
          exfalso
          have hm : (a.toNat - 48 + 1) * 10 ^ u.length ≤ (b.toNat - 48) * 10 ^ u.length :=
            Nat.mul_le_mul_right _ (by omega)
          have hd : (a.toNat - 48 + 1) * 10 ^ u.length
              = (a.toNat - 48) * 10 ^ u.length + 10 ^ u.length := by ring
          omega
      · rw [if_neg h1]
        by_cases h2 : b.toNat < a.toNat
        · rw [if_pos h2]
          constructor
          · intro _
            have hm : (b.toNat - 48 + 1) * 10 ^ u.length ≤ (a.toNat - 48) * 10 ^ u.length :=
              Nat.mul_le_mul_right _ (by omega)
            have hd : (b.toNat - 48 + 1) * 10 ^ u.length
                = (b.toNat - 48) * 10 ^ u.length + 10 ^ u.length := by ring
            omega
          · intro _
            rfl
        · rw [if_neg h2]
          have heq : a.toNat - 48 = b.toNat - 48 := by omega
          rw [heq, ih u hlen hta htb]
          constructor
          · intro hx
            omega
          · intro hx
            omega

/-- The value denoted by `"18446744073709551615"`. -/
theorem digitsVal_u64max : digitsVal "18446744073709551615".toList = 18446744073709551615 := by
  decide

/-- The value denoted by `"9223372036854775807"`. -/
theorem digitsVal_s64max : digitsVal "9223372036854775807".toList = 9223372036854775807 := by
  decide

/-- The digit magnitude of `"-9223372036854775808"`. -/
theorem digitsVal_s64min : digitsVal "9223372036854775808".toList = 9223372036854775808 := by
  decide

/-- `takeWhile` is an initial segment: taking its length's worth of elements
from the list returns it. -/
theorem take_takeWhile_self {p : Char → Bool} (cs : List Char) {n : Nat}
    (h : (cs.takeWhile p).length = n) : cs.take n = cs.takeWhile p := by
  conv_lhs => rw [← List.takeWhile_append_dropWhile (p := p) (l := cs)]
  exact List.take_left' h

/-- `util::to_u64` fails (returns 0) on every digit run denoting a value
outside `u64` range. -/
theorem to_u64_overflow (cs : List Char)
    (h : 18446744073709551616 ≤ digitsVal (cs.takeWhile (fun c => isDigitCh c))) :
    (to_u64M cs).1 = 0 := by
  have hdig : ∀ c ∈ cs.takeWhile (fun c => isDigitCh c), isDigitCh c = true :=
    fun c hc => mem_takeWhile_pred hc
  have hlen : 20 ≤ (cs.takeWhile (fun c => isDigitCh c)).length := by
    by_contra hlt
    push_neg at hlt
    have h1 := digitsVal_lt _ hdig
    have h2 : (10 : Nat) ^ (cs.takeWhile (fun c => isDigitCh c)).length ≤ 10 ^ 19 :=
      Nat.pow_le_pow_right (by norm_num) (by omega)
    have : (10 : Nat) ^ 19 < 18446744073709551616 := by norm_num
    omega
  unfold to_u64M
  simp only []
  rcases Nat.lt_or_ge 20 (cs.takeWhile (fun c => isDigitCh c)).length with hgt | hle
  · simp [hgt]
  · have h20 : (cs.takeWhile (fun c => isDigitCh c)).length = 20 := by omega
    have htake := take_takeWhile_self cs h20
    have hmax : memOrd (cs.take 20) "18446744073709551615".toList = Ordering.gt := by
      rw [htake]
      rw [memOrd_gt_iff _ _ (by rw [h20]; decide) hdig (by decide)]
      rw [digitsVal_u64max]
      omega
    simp [h20]
    simpa using hmax

/-- `util::to_s64` fails (returns 0) on every unsigned digit run denoting a
value above the `s64` maximum. -/
theorem to_s64_overflow_pos (cs : List Char)
    (hs : ¬ cs.headD c0 = '-')
    (h : 9223372036854775808 ≤ digitsVal (cs.takeWhile (fun c => isDigitCh c))) :
    (to_s64M cs).1 = 0 := by
  have hdig : ∀ c ∈ cs.takeWhile (fun c => isDigitCh c), isDigitCh c = true :=
    fun c hc => mem_takeWhile_pred hc
  have hlen : 19 ≤ (cs.takeWhile (fun c => isDigitCh c)).length := by
    by_contra hlt
    push_neg at hlt
    have h1 := digitsVal_lt _ hdig
    have h2 : (10 : Nat) ^ (cs.takeWhile (fun c => isDigitCh c)).length ≤ 10 ^ 18 :=
      Nat.pow_le_pow_right (by norm_num) (by omega)
    have : (10 : Nat) ^ 18 < 9223372036854775808 := by norm_num
    omega
  unfold to_s64M
  simp only [hs, if_neg, if_false, eq_self_iff_true]
  rcases Nat.lt_or_ge 19 (cs.takeWhile (fun c => isDigitCh c)).length with hgt | hle
  · simp [hs, hgt]
  · have h19 : (cs.takeWhile (fun c => isDigitCh c)).length = 19 := by omega
    have htake := take_takeWhile_self cs h19
    have hmax : memOrd (cs.take 19) "9223372036854775807".toList = Ordering.gt := by
      rw [htake]
      rw [memOrd_gt_iff _ _ (by rw [h19]; decide) hdig (by decide)]
      rw [digitsVal_s64max]
      omega
    simp [hs, h19]
    simpa using hmax

/-- `util::to_s64` fails (returns 0) on every `-`-signed digit run denoting a
value below the `s64` minimum. -/
theorem to_s64_overflow_neg (rest : List Char)
    (h : 9223372036854775808 < digitsVal (rest.takeWhile (fun c => isDigitCh c))) :
    (to_s64M ('-' :: rest)).1 = 0 := by
  have hdig : ∀ c ∈ rest.takeWhile (fun c => isDigitCh c), isDigitCh c = true :=
    fun c hc => mem_takeWhile_pred hc
  have hlen : 19 ≤ (rest.takeWhile (fun c => isDigitCh c)).length := by
    by_contra hlt
    push_neg at hlt
    have h1 := digitsVal_lt _ hdig
    have h2 : (10 : Nat) ^ (rest.takeWhile (fun c => isDigitCh c)).length ≤ 10 ^ 18 :=
      Nat.pow_le_pow_right (by norm_num) (by omega)
    have : (10 : Nat) ^ 18 < 9223372036854775808 := by norm_num
    omega
  unfold to_s64M
  simp only [List.headD_cons]
  rcases Nat.lt_or_ge 19 (rest.takeWhile (fun c => isDigitCh c)).length with hgt | hle
  · simp [hgt]
  · have h19 : (rest.takeWhile (fun c => isDigitCh c)).length = 19 := by omega
    have htake := take_takeWhile_self rest h19
    have hmin : memOrd ('-' :: rest.take 19) "-9223372036854775808".toList = Ordering.gt := by
      have hred : memOrd ('-' :: rest.take 19) "-9223372036854775808".toList
          = memOrd (rest.take 19) "9223372036854775808".toList := by
        simp [memOrd]
      rw [hred, htake]
      rw [memOrd_gt_iff _ _ (by rw [h19]; decide) hdig (by decide)]
      rw [digitsVal_s64min]
      omega
    simp [h19]
    simpa using hmin

set_option maxRecDepth 2048 in
/-- C7: the boundary behaviour of `util::to_u64` / `util::to_s64` — the
extremal values parse (nonzero consumed count, exact stored value, the signed
minimum via two's-complement wraparound of the overflowing accumulation), the
one-past values fail with count 0, and in general each function returns 0 for
every digit run denoting a value outside the target type's range, the
detection being by digit-count and, on equal length, lexicographic comparison
against the extremal decimal text. -/
theorem C7_integer_bounds :
    to_u64M "18446744073709551615".toList = (20, 18446744073709551615) ∧
    (to_u64M "18446744073709551616".toList).1 = 0 ∧
    to_s64M "-9223372036854775808".toList = (20, -9223372036854775808) ∧
    (to_s64M "9223372036854775808".toList).1 = 0 ∧
    (∀ cs : List Char,
      18446744073709551616 ≤ digitsVal (cs.takeWhile (fun c => isDigitCh c)) →
      (to_u64M cs).1 = 0) ∧
    (∀ cs : List Char, ¬ cs.headD c0 = '-' →
      9223372036854775808 ≤ digitsVal (cs.takeWhile (fun c => isDigitCh c)) →
      (to_s64M cs).1 = 0) ∧
    (∀ rest : List Char,
      9223372036854775808 < digitsVal (rest.takeWhile (fun c => isDigitCh c)) →
      (to_s64M ('-' :: rest)).1 = 0) :=
  ⟨by decide, by decide, by decide, by decide,
    to_u64_overflow, to_s64_overflow_pos, to_s64_overflow_neg⟩

/-- Witness for C7: the general overflow clauses applied to concrete
out-of-range inputs. -/
theorem C7_witness :
    (to_u64M "99999999999999999999".toList).1 = 0 ∧
    (to_s64M "9999999999999999999".toList).1 = 0 ∧
    (to_s64M "-99999999999999999999".toList).1 = 0 :=
  ⟨C7_integer_bounds.2.2.2.2.1 _ (by decide),
   C7_integer_bounds.2.2.2.2.2.1 _ (by decide) (by decide),
   C7_integer_bounds.2.2.2.2.2.2 _ (by decide)⟩

/-- C6 (code bug): resolving the path `.x` on the parsed form of `{"a":1}`
reaches the key-chain exhaustion case with path left to consume; the loop
condition of `get_value_node` then evaluates `current_node->IsEOF()` before
its `current_node != nullptr` test, dereferencing the null pointer
(undefined behaviour) instead of returning the documented not-found result.
For contrast: a matching key (quoted or unquoted) resolves to its value, and
on `{"a":1,"ab":2}` the step `.ab` is captured by the proper prefix key `"a"`
(the comparison tests whether the remaining path *begins with* the stored key
text), so the resolver misses the exactly-equal key `"ab"`. -/
theorem C6_missing_key_crashes :
    get_value_node demoObj1 0 ".x".toList = GVN.crash ∧
    get_value_node demoObj1 0 ".a".toList = GVN.found 2 ∧
    get_value_node demoObj1 0 ".\"a\"".toList = GVN.found 2 ∧
    get_value_node demoObj2 0 ".ab".toList = GVN.notFound := by
  refine ⟨by decide, by decide, by decide, by decide⟩

theorem getD_append_len (l : List Char) (c x : Char) : (l ++ [c]).getD l.length x = c := by
  induction l with
  | nil => rfl
  | cons a t ih => simpa using ih

theorem walkNexts_chain (buf : List JsonNode) (es : List Nat) (c : Nat)
    (hchain : ∀ k, k < c → ∃ ek, buf[es.getD k 0]? = some ek ∧
      (k + 1 < c → ek.next = some (es.getD (k + 1) 0))) :
    ∀ j s, s + j < c →
      walkNexts buf j (es.getD s 0) = some (some (es.getD (s + j) 0)) := by
  intro j
  induction j with
  | zero => intro s _; simp [walkNexts]
  | succ j ih =>
    intro s hs
    obtain ⟨ek, hek, hnx⟩ := hchain s (by omega)
    have hnx2 := hnx (by omega)
    simp only [walkNexts, hek, hnx2]
    have harith : s + 1 + j = s + (j + 1) := by omega
    rw [← harith]
    exact ih (s + 1) (by omega)

theorem gvn_array_index (buf : List JsonNode) (a c : Nat) (nd : JsonNode) (es : List Nat)
    (sign : Bool) (ds : List Char) (i : Nat)
    (hnd : buf[a]? = some nd) (htype : nd.type = JsonNodeType.JSON_ARRAY)
    (hcount : nd.count = c) (hc1 : 1 ≤ c)
    (hlen : es.length = c) (hfirst : es.getD 0 0 = a + 1)
    (hchain : ∀ k, k < c → ∃ ek, buf[es.getD k 0]? = some ek ∧
      (k + 1 < c → ek.next = some (es.getD (k + 1) 0)))
    (hne : ds ≠ []) (hdig : ∀ x ∈ ds, isDigitCh x = true)
    (hto : to_u64M (ds ++ [']']) = (ds.length, i)) :
    get_value_node buf a ('[' :: (if sign then ['-'] else []) ++ (ds ++ [']']))
      = GVN.found (es.getD (finalIdx sign i c) 0) := by
  obtain ⟨d, ds', rfl⟩ : ∃ d ds', ds = d :: ds' := by
    cases ds with
    | nil => exact absurd rfl hne
    | cons d t => exact ⟨d, t, rfl⟩
  have hfin : finalIdx sign i c < c := by
    have hmod : i % c < c := Nat.mod_lt i (by omega)
    unfold finalIdx
    dsimp only []
    by_cases hge : i ≥ c <;> simp only [hge, if_true, if_false, ite_true, ite_false] <;>
      split <;> omega
  have hwalk := walkNexts_chain buf es c hchain (finalIdx sign i c) 0 (by simpa using hfin)
  rw [hfirst] at hwalk
  cases sign with
  | true =>
    have hpm : ('[' :: (if (true : Bool) then ['-'] else []) ++ (d :: ds' ++ [']']))
        = '[' :: '-' :: d :: (ds' ++ [']']) := by simp
    rw [hpm]
    simp only [get_value_node, hnd]
    rw [if_pos (Or.inl (show nd.IsArray = true by simp [JsonNode.IsArray, htype]))]
    rw [gvnLoop]
    rw [if_neg (by simp)]
    simp only [hnd]
    rw [if_neg (by simp [htype])]
    have harr : nd.IsArray = true := by simp [JsonNode.IsArray, htype]
    have hsgn : (0 + 1 < ('[' :: '-' :: d :: (ds' ++ [']'])).length ∧
        ('[' :: '-' :: d :: (ds' ++ [']'])).getD (0 + 1) c0 = '-') := ⟨by simp, rfl⟩
    have hcnt : ¬ nd.count = 0 := by omega
    have hdrop : List.drop (0 + 1 + 1) ('[' :: '-' :: d :: (ds' ++ [']'])) = (d :: ds') ++ [']'] := rfl
    have hket : ('[' :: '-' :: d :: (ds' ++ [']'])).getD (0 + 1 + 1 + (d :: ds').length) c0 = ']' := by
      have h1 : 0 + 1 + 1 + (d :: ds').length = ('[' :: '-' :: d :: ds').length := by
        simp
        omega
      have h2 : ('[' :: '-' :: d :: (ds' ++ [']'])) = ('[' :: '-' :: d :: ds') ++ [']'] := by simp
      rw [h1, h2, getD_append_len]
    have hbr : 0 + 1 + 1 + (d :: ds').length < ('[' :: '-' :: d :: (ds' ++ [']'])).length := by
      simp
      omega
    simp only [harr, hsgn, hcnt, hdrop, hto, hket, hbr, hcount, and_true, true_and,
      if_true, ite_true, if_false, ite_false, and_self, not_false_iff]
    have hc0 : ¬ c = 0 := by omega
    have hfi : (if (if i ≥ c then i % c else i) ≠ 0 then c - (if i ≥ c then i % c else i)
        else (if i ≥ c then i % c else i)) = finalIdx true i c := by
      unfold finalIdx
      simp
    simp only [List.getD_cons_zero, hc0, ite_true, if_true, ite_false, if_false,
      List.length_cons, Nat.succ_ne_zero, not_false_iff, hfi, reduceCtorEq]
    simp only [Nat.zero_add] at hwalk
    rw [hwalk]
    dsimp only []
    rw [gvnLoop]
    rw [if_pos (by
      have hl1 : ('[' :: '-' :: d :: (ds' ++ [']'])).length = ds'.length + 4 := by simp
      have hl2 : (d :: ds').length = ds'.length + 1 := by simp
      omega)]
  | false =>
    have hpm : ('[' :: (if (false : Bool) then ['-'] else []) ++ (d :: ds' ++ [']']))
        = '[' :: d :: (ds' ++ [']']) := by simp
    rw [hpm]
    simp only [get_value_node, hnd]
    rw [if_pos (Or.inl (show nd.IsArray = true by simp [JsonNode.IsArray, htype]))]
    rw [gvnLoop]
    rw [if_neg (by simp)]
    simp only [hnd]
    rw [if_neg (by simp [htype])]
    have harr : nd.IsArray = true := by simp [JsonNode.IsArray, htype]
    have hd45 : isDigitCh d = true := hdig d (List.mem_cons_self d ds')
    have hnsgn : ¬ (0 + 1 < ('[' :: d :: (ds' ++ [']'])).length ∧
        ('[' :: d :: (ds' ++ [']'])).getD (0 + 1) c0 = '-') := by
      intro hx
      have hEq := hx.2
      simp only [List.getD_cons_succ, List.getD_cons_zero] at hEq
      rw [hEq] at hd45
      exact absurd hd45 (by decide)
    have hcnt : ¬ nd.count = 0 := by omega
    have hdrop : List.drop (0 + 1) ('[' :: d :: (ds' ++ [']'])) = (d :: ds') ++ [']'] := rfl
    have hket : ('[' :: d :: (ds' ++ [']'])).getD (0 + 1 + (d :: ds').length) c0 = ']' := by
      have h1 : 0 + 1 + (d :: ds').length = ('[' :: d :: ds').length := by
        simp
        omega
      have h2 : ('[' :: d :: (ds' ++ [']'])) = ('[' :: d :: ds') ++ [']'] := by simp
      rw [h1, h2, getD_append_len]
    have hbr : 0 + 1 + (d :: ds').length < ('[' :: d :: (ds' ++ [']'])).length := by
      simp
      omega
    simp only [harr, hnsgn, hcnt, hdrop, hto, hket, hbr, hcount, and_true, true_and,
      false_and, and_false, if_true, ite_true, if_false, ite_false, and_self, not_false_iff]
    have hc0 : ¬ c = 0 := by omega
    have hfi : (if i ≥ c then i % c else i) = finalIdx false i c := by
      unfold finalIdx
      simp
    simp only [List.getD_cons_zero, hc0, ite_true, if_true, ite_false, if_false,
      List.length_cons, Nat.succ_ne_zero, not_false_iff, hfi, reduceCtorEq]
    simp only [Nat.zero_add] at hwalk
    rw [hwalk]
    dsimp only []
    rw [gvnLoop]
    rw [if_pos (by
      have hl1 : ('[' :: d :: (ds' ++ [']'])).length = ds'.length + 3 := by simp
      have hl2 : (d :: ds').length = ds'.length + 1 := by simp
      omega)]

/-- C1: for every array node with count `c >= 1` and a path step `[i]` (or
`[-i]`) whose index text is an unsigned decimal, the resolver selects element
index `i % c` when `i >= c` (else `i`), and for a negative sign with nonzero
reduced index it selects `c - idx`, always yielding a found element (never
not-found); in particular on the 2-element array `[1,2]` the paths `[-1]` and
`[1]` resolve to the same node, and `[2]` resolves to the same node as `[0]`. -/
theorem C1_array_index_wraparound (buf : List JsonNode) (a c : Nat) (nd : JsonNode)
    (es : List Nat) (sign : Bool) (ds : List Char) (i : Nat)
    (hnd : buf[a]? = some nd) (htype : nd.type = JsonNodeType.JSON_ARRAY)
    (hcount : nd.count = c) (hc1 : 1 ≤ c)
    (hlen : es.length = c) (hfirst : es.getD 0 0 = a + 1)
    (hchain : ∀ k, k < c → ∃ ek, buf[es.getD k 0]? = some ek ∧
      (k + 1 < c → ek.next = some (es.getD (k + 1) 0)))
    (hne : ds ≠ []) (hdig : ∀ x ∈ ds, isDigitCh x = true)
    (hto : to_u64M (ds ++ [']']) = (ds.length, i)) :
    get_value_node buf a ('[' :: (if sign then ['-'] else []) ++ (ds ++ [']']))
      = GVN.found (es.getD (finalIdx sign i c) 0)
    ∧ get_value_node demoArr2 0 "[-1]".toList = get_value_node demoArr2 0 "[1]".toList
    ∧ get_value_node demoArr2 0 "[1]".toList = GVN.found 2
    ∧ get_value_node demoArr2 0 "[2]".toList = get_value_node demoArr2 0 "[0]".toList
    ∧ get_value_node demoArr2 0 "[0]".toList = GVN.found 1 := by
  exact ⟨gvn_array_index buf a c nd es sign ds i hnd htype hcount hc1 hlen hfirst
    hchain hne hdig hto, by decide, by decide, by decide, by decide⟩

/-- Witness for C1: the general wraparound clause applied to the concrete
buffer of `[1,2]` with path `[-2]`, whose final index is `2 - 2 % 2 = 0`,
i.e. the first element (node 1). -/
theorem C1_witness :
    get_value_node demoArr2 0 ('[' :: (if true then ['-'] else []) ++ (['2'] ++ [']']))
      = GVN.found (List.getD [1, 2] (finalIdx true 2 2) 0) :=
  (C1_array_index_wraparound demoArr2 0 2
    { type := JsonNodeType.JSON_ARRAY, sv := ['['], count := 2, next := none }
    [1, 2] true ['2'] 2 rfl rfl rfl (by decide) rfl rfl
    (by
      intro k hk
      interval_cases k
      · exact ⟨_, rfl, fun _ => rfl⟩
      · exact ⟨_, rfl, fun h => absurd h (by omega)⟩)
    (by decide) (by decide) rfl).1

theorem parseTopLoop_reject (fuel : Nat) (s : PState)
    (hpos : s.pos < s.input.length)
    (hna : (getNextToken s.input s.pos).1.type ≠ JsonTokenType.JSON_ARRAY_BEGIN)
    (hno : (getNextToken s.input s.pos).1.type ≠ JsonTokenType.JSON_OBJECT_BEGIN) :
    (parseTopLoop (fuel + 1) s).1 = false ∧
    (parseTopLoop (fuel + 1) s).2.err ≠ JsonErrorCode.VALID_JSON := by
  have ha := decide_eq_false hna
  have ho := decide_eq_false hno
  simp only [parseTopLoop, getNextTokenS, expect, pushNode]
  rw [if_neg (not_not_intro hpos)]
  simp only [ha, ho, Bool.or_self, Bool.false_or, Bool.or_false]
  constructor <;>
    repeat' first
      | split
      | contradiction
      | dsimp only []
      | simp only [not_false_iff, not_true, if_true, if_false, ite_true, ite_false]
      | exact rfl
      | decide

/-- C5 (counterexample): the input `[1][2]`, which contains two top-level
arrays, parses with status `VALID_JSON`: the root loop of `Parse` happily
consumes one root after another while input remains, so multi-root documents
are accepted, contrary to the claim. -/
theorem C5_counterexample :
    (Parse "[1][2]".toList 16).err = JsonErrorCode.VALID_JSON := by decide

/-- C5 (amended): when the first token of the input is neither `[` nor `{`
(and some non-whitespace input is present), `Parse` never reports
`VALID_JSON` — bare top-level scalars are indeed rejected — while a sequence
of several top-level arrays/objects is accepted as valid (zero-or-more roots,
not exactly one). -/
theorem C5_root_token_policy (input : List Char) (cap : Nat)
    (hpos : skipWs input 0 < input.length)
    (hna : (getNextToken input (skipWs input 0)).1.type ≠ JsonTokenType.JSON_ARRAY_BEGIN)
    (hno : (getNextToken input (skipWs input 0)).1.type ≠ JsonTokenType.JSON_OBJECT_BEGIN) :
    (Parse input cap).err ≠ JsonErrorCode.VALID_JSON
    ∧ (Parse "[1]".toList 8).err = JsonErrorCode.VALID_JSON
    ∧ (Parse "{}[2]".toList 8).err = JsonErrorCode.VALID_JSON := by
  refine ⟨?_, by decide, by decide⟩
  unfold Parse
  obtain ⟨f, hf⟩ : ∃ f, 2 * input.length + 16 = f + 1 := ⟨2 * input.length + 15, by omega⟩
  rw [hf]
  obtain ⟨h1, h2⟩ := parseTopLoop_reject f
    { input := input, pos := skipWs input 0, err := JsonErrorCode.NOT_DONE,
      nodes := [], cap := cap } hpos hna hno
  simp only [h1, Bool.false_eq_true, if_false, ite_false]
  exact h2

/-- Witness for C5: the bare top-level scalar `123` is rejected. -/
theorem C5_witness :
    (Parse "123".toList 8).err ≠ JsonErrorCode.VALID_JSON :=
  (C5_root_token_policy "123".toList 8 (by decide) (by decide) (by decide)).1

theorem pushNode_full (tok : JsonToken) (s : PState)
    (h : s.cap ≤ s.nodes.length) :
    pushNode tok s = (false, { s with err := JsonErrorCode.CAPACITY_EXCEEDED }) := by
  unfold pushNode
  rw [if_neg (by omega)]

theorem expect_full (tok : JsonToken) (c : Bool) (s : PState)
    (h : s.cap ≤ s.nodes.length) :
    expect tok c s = if c then (true, s)
      else (false, { s with err := JsonErrorCode.CAPACITY_EXCEEDED }) := by
  unfold expect
  split
  · rfl
  · split
    · dsimp only []
      rw [pushNode_full _ _ (by simpa using h)]
    · dsimp only []
      rw [pushNode_full _ _ (by simpa using h)]

theorem fullInv (fuel : Nat) :
    (∀ s, s.cap ≤ s.nodes.length → CapFrozen s (parseArray fuel s)) ∧
    (∀ cIdx prev tok s, s.cap ≤ s.nodes.length →
      CapFrozen s (parseArrayLoop fuel cIdx prev tok s)) ∧
    (∀ s, s.cap ≤ s.nodes.length → CapFrozen s (parseObject fuel s)) ∧
    (∀ cIdx pk pv tok s, s.cap ≤ s.nodes.length →
      CapFrozen s (parseObjectLoop fuel cIdx pk pv tok s)) ∧
    (∀ s, s.cap ≤ s.nodes.length → CapFrozen s (parseTopLoop fuel s)) := by
  induction fuel with
  | zero =>
    refine ⟨?_, ?_, ?_, ?_, ?_⟩ <;> intros <;>
      exact ⟨rfl, rfl, fun h => h⟩
  | succ fuel ih =>
    obtain ⟨ihA, ihAL, ihO, ihOL, ihT⟩ := ih
    have hAL : ∀ cIdx prev tok s, s.cap ≤ s.nodes.length →
        CapFrozen s (parseArrayLoop (fuel + 1) cIdx prev tok s) := by
      intro cIdx prev tok s hfull
      rw [parseArrayLoop]
      split
      · exact ⟨rfl, rfl, fun h => h⟩
      · lift_lets
        extract_lets isP isA isO e1
        have hE : e1 = (if (isP || decide isA || decide isO) = true then (true, s)
            else (false, { s with err := JsonErrorCode.CAPACITY_EXCEEDED })) :=
          expect_full _ _ _ hfull
        rw [hE]
        split
        · lift_lets
          extract_lets p1
          have hP : p1 = (false, { s with err := JsonErrorCode.CAPACITY_EXCEEDED }) :=
            pushNode_full tok s hfull
          rw [hP]
          exact ⟨rfl, rfl, fun _ => rfl⟩
        · exact ⟨rfl, rfl, fun _ => rfl⟩
    have hOL : ∀ cIdx pk pv tok s, s.cap ≤ s.nodes.length →
        CapFrozen s (parseObjectLoop (fuel + 1) cIdx pk pv tok s) := by
      intro cIdx pk pv tok s hfull
      rw [parseObjectLoop]
      split
      · exact ⟨rfl, rfl, fun h => h⟩
      · lift_lets
        extract_lets e1
        have hE : e1 = (if decide (tok.type = JsonTokenType.JSON_STRING) = true
            then (true, s)
            else (false, { s with err := JsonErrorCode.CAPACITY_EXCEEDED })) :=
          expect_full _ _ _ hfull
        rw [hE]
        by_cases hc : decide (tok.type = JsonTokenType.JSON_STRING) = true
        · rw [if_pos hc]
          lift_lets
          extract_lets tokK p1
          have hP : p1 = (false, { s with err := JsonErrorCode.CAPACITY_EXCEEDED }) :=
            pushNode_full tokK s hfull
          rw [hP]
          exact ⟨rfl, rfl, fun _ => rfl⟩
        · rw [if_neg hc]
          exact ⟨rfl, rfl, fun _ => rfl⟩
    have hA : ∀ s, s.cap ≤ s.nodes.length →
        CapFrozen s (parseArray (fuel + 1) s) := by
      intro s hfull
      simp only [parseArray, getNextTokenS]
      split
      · exact ⟨rfl, rfl, fun h => h⟩
      · exact ihAL _ _ _ _ (by simpa using hfull)
    have hO : ∀ s, s.cap ≤ s.nodes.length →
        CapFrozen s (parseObject (fuel + 1) s) := by
      intro s hfull
      simp only [parseObject, getNextTokenS]
      split
      · exact ⟨rfl, rfl, fun h => h⟩
      · exact ihOL _ _ _ _ _ (by simpa using hfull)
    have hT : ∀ s, s.cap ≤ s.nodes.length →
        CapFrozen s (parseTopLoop (fuel + 1) s) := by
      intro s hfull
      rw [parseTopLoop]
      split
      · exact ⟨rfl, rfl, fun h => h⟩
      · lift_lets
        extract_lets r isA isO e1
        have hfull2 : r.2.cap ≤ r.2.nodes.length := hfull
        have hE : e1 = (if (decide isA || decide isO) = true then (true, r.2)
            else (false, { r.2 with err := JsonErrorCode.CAPACITY_EXCEEDED })) :=
          expect_full _ _ _ hfull2
        rw [hE]
        split
        · lift_lets
          extract_lets s2 r3
          rw [if_neg (by simp)]
          have hS : s2 = { r.2 with err := JsonErrorCode.CAPACITY_EXCEEDED } :=
            congrArg Prod.snd (pushNode_full r.1 r.2 hfull2)
          by_cases hIA : isA
          · have hR : r3 = parseArray fuel s2 := if_pos hIA
            rw [hR, hS]
            obtain ⟨hc1, hn1, he1⟩ := ihA
              { r.2 with err := JsonErrorCode.CAPACITY_EXCEEDED } hfull
            split
            · exact ⟨hc1, hn1, fun _ => he1 rfl⟩
            · obtain ⟨hc2, hn2, he2⟩ := ihT _ (by rw [hc1, hn1]; exact hfull)
              exact ⟨hc2.trans hc1, hn2.trans hn1, fun _ => he2 (he1 rfl)⟩
          · have hR : r3 = parseObject fuel s2 := if_neg hIA
            rw [hR, hS]
            obtain ⟨hc1, hn1, he1⟩ := ihO
              { r.2 with err := JsonErrorCode.CAPACITY_EXCEEDED } hfull
            split
            · exact ⟨hc1, hn1, fun _ => he1 rfl⟩
            · obtain ⟨hc2, hn2, he2⟩ := ihT _ (by rw [hc1, hn1]; exact hfull)
              exact ⟨hc2.trans hc1, hn2.trans hn1, fun _ => he2 (he1 rfl)⟩
        · exact ⟨rfl, rfl, fun _ => rfl⟩
    exact ⟨hA, hAL, hO, hOL, hT⟩

/-- C2: when the node buffer is full at an append, `pushNode` fails, sets
`CAPACITY_EXCEEDED` and writes nothing; from such a state the whole root loop
leaves the buffer untouched and the capacity status in place (even though the
root-level push result is discarded by `Parse`, every later error write is
immediately overwritten back to `CAPACITY_EXCEEDED` by the failed push inside
`expect`); concretely, `[1]` parsed into a 1-slot buffer stops with
`CAPACITY_EXCEEDED` and one node, and re-parsing it with capacity 3 yields
`VALID_JSON` with all 3 nodes. -/
theorem C2_capacity_exceeded_policy (tok : JsonToken) (s : PState)
    (hfull : s.cap ≤ s.nodes.length) :
    pushNode tok s = (false, { s with err := JsonErrorCode.CAPACITY_EXCEEDED })
    ∧ (∀ fuel, (parseTopLoop fuel s).2.nodes = s.nodes ∧
        (s.err = JsonErrorCode.CAPACITY_EXCEEDED →
          (parseTopLoop fuel s).2.err = JsonErrorCode.CAPACITY_EXCEEDED))
    ∧ (Parse "[1]".toList 1).err = JsonErrorCode.CAPACITY_EXCEEDED
    ∧ (Parse "[1]".toList 1).nodes.length = 1
    ∧ (Parse "[1]".toList 3).err = JsonErrorCode.VALID_JSON
    ∧ (Parse "[1]".toList 3).nodes.length = 3 := by
  refine ⟨pushNode_full tok s hfull, fun fuel => ?_,
    by decide, by decide, by decide, by decide⟩
  obtain ⟨-, hn, he⟩ := (fullInv fuel).2.2.2.2 s hfull
  exact ⟨hn, he⟩

/-- Witness for C2: a failed append on a concrete full (0-slot) state, and
the concrete 1-slot capacity failure. -/
theorem C2_witness :
    pushNode { text := ['['], type := JsonTokenType.JSON_ARRAY_BEGIN }
        { input := [], pos := 0, err := JsonErrorCode.NOT_DONE, nodes := [], cap := 0 }
      = (false,
        { input := [], pos := 0, err := JsonErrorCode.CAPACITY_EXCEEDED,
          nodes := [], cap := 0 })
    ∧ (Parse "[1]".toList 1).err = JsonErrorCode.CAPACITY_EXCEEDED :=
  ⟨(C2_capacity_exceeded_policy
      { text := ['['], type := JsonTokenType.JSON_ARRAY_BEGIN }
      { input := [], pos := 0, err := JsonErrorCode.NOT_DONE, nodes := [], cap := 0 }
      (by decide)).1,
   (C2_capacity_exceeded_policy
      { text := ['['], type := JsonTokenType.JSON_ARRAY_BEGIN }
      { input := [], pos := 0, err := JsonErrorCode.NOT_DONE, nodes := [], cap := 0 }
      (by decide)).2.2.1⟩

theorem drop_head_getD (input : List Char) (q : Nat) (x : Char) (rest : List Char)
    (h : input.drop q = x :: rest) :
    input.getD q c0 = x ∧ input.drop (q + 1) = rest := by
  have hq : q < input.length := by
    by_contra hge
    rw [List.drop_eq_nil_of_le (by omega)] at h
    exact List.noConfusion h
  rw [List.drop_eq_getElem_cons hq] at h
  obtain ⟨h1, h2⟩ := List.cons.inj h
  exact ⟨by rw [List.getD_eq_getElem _ _ hq, h1], h2⟩

theorem skipHexUpTo_eq (input : List Char) :
    ∀ k q, skipHexUpTo input q k = q + hexTake (input.drop q) k := by
  intro k
  induction k with
  | zero => intro q; simp [skipHexUpTo, hexTake]
  | succ k ih =>
    intro q
    unfold skipHexUpTo
    rcases hq : input.drop q with _ | ⟨x, rest⟩
    · have hge : input.length ≤ q := by
        by_contra hlt
        rw [List.drop_eq_getElem_cons (by omega)] at hq
        exact List.noConfusion hq
      rw [if_neg (by simp; omega)]
      simp [hexTake]
    · obtain ⟨hx, hrest⟩ := drop_head_getD input q x rest hq
      have hq2 : q < input.length := by
        by_contra hge
        rw [List.drop_eq_nil_of_le (by omega)] at hq
        exact List.noConfusion hq
      by_cases hhex : isHexDigitCh x = true
      · rw [if_pos (by rw [hx]; exact ⟨hq2, hhex⟩)]
        rw [ih (q + 1), hrest]
        simp only [hexTake, hhex, if_true, ite_true]
        omega
      · rw [if_neg (by rw [hx]; simp [hhex])]
        simp [hexTake, hhex]

theorem matchStrGoF_stop (input : List Char) :
    ∀ fl pos, matchStrGoF fl input pos = pos + strStopF fl (input.drop pos) := by
  intro fl
  induction fl with
  | zero => intro pos; simp [matchStrGoF, strStopF]
  | succ fl ih =>
    intro pos
    rw [matchStrGoF]
    by_cases hp : pos < input.length
    · rw [if_pos hp]
      dsimp only []
      have hcons : input.drop pos = input.getD pos c0 :: input.drop (pos + 1) := by
        rw [List.drop_eq_getElem_cons hp, List.getD_eq_getElem _ _ hp]
      rw [hcons]
      rw [strStopF.eq_def]
      dsimp only []
      by_cases h22 : (input.getD pos c0).toNat = 0x22
      · rw [if_pos h22, if_pos h22]
        omega
      · rw [if_neg h22, if_neg h22]
        by_cases hctl : (input.getD pos c0).toNat < 0x20 ∨ (input.getD pos c0).toNat = 0x2F
        · rw [if_pos hctl, if_pos hctl]
          omega
        · rw [if_neg hctl, if_neg hctl]
          by_cases hbs : (input.getD pos c0).toNat = 0x5C
          · rw [if_pos hbs, if_pos hbs]
            rcases hq : input.drop (pos + 1) with _ | ⟨e2, cs3⟩
            · have hge : input.length ≤ pos + 1 := by
                by_contra hlt
                rw [List.drop_eq_getElem_cons (by omega)] at hq
                exact List.noConfusion hq
              have he0 : input.getD (pos + 1) c0 = c0 := by
                have hnone : input.get? (pos + 1) = none :=
                  List.get?_eq_none.mpr (by omega)
                unfold List.getD
                rw [hnone]
                rfl
              dsimp only []
              rw [he0]
              rw [if_neg (by decide), if_neg (by decide)]
            · obtain ⟨he2, hrest⟩ := drop_head_getD input (pos + 1) e2 cs3 hq
              dsimp only []
              rw [he2]
              by_cases hesc : isEscCh e2 = true
              · rw [if_pos hesc, if_pos hesc]
                rw [ih (pos + 1 + 1), hrest]
                omega
              · rw [if_neg hesc, if_neg hesc]
                by_cases hu : e2 = 'u'
                · rw [if_pos hu, if_pos hu]
                  rw [skipHexUpTo_eq input 4 (pos + 1 + 1), hrest]
                  rw [ih (pos + 1 + 1 + hexTake cs3 4)]
                  obtain ⟨h4, hh4⟩ : ∃ h4, hexTake cs3 4 = h4 := ⟨_, rfl⟩
                  rw [hh4]
                  have hdd : input.drop (pos + 1 + 1 + h4) = cs3.drop h4 := by
                    rw [← hrest, List.drop_drop]
                  rw [hdd]
                  omega
                · rw [if_neg hu, if_neg hu]
          · rw [if_neg hbs, if_neg hbs]
            by_cases hff : (input.getD pos c0).toNat < 0xFF
            · rw [if_pos hff, if_pos hff]
              rw [ih (pos + 1)]
              omega
            · rw [if_neg hff, if_neg hff]
              have hl0 : utf8_len (input.getD pos c0).toNat = 0 := by
                unfold utf8_len
                rw [if_neg (by omega), if_neg (by omega), if_neg (by omega),
                  if_neg (by omega), if_neg (by omega)]
              rw [if_pos hl0]
              omega
    · rw [if_neg hp]
      rw [List.drop_eq_nil_of_le (by omega)]
      rw [strStopF]
      omega

theorem strStopF_fuel : ∀ fl fl' cs, cs.length < fl → cs.length < fl' →
    strStopF fl cs = strStopF fl' cs := by
  intro fl
  induction fl with
  | zero => intro fl' cs h h'; exact absurd h (Nat.not_lt_zero _)
  | succ fl ih =>
    intro fl' cs h h'
    cases fl' with
    | zero => exact absurd h' (Nat.not_lt_zero _)
    | succ k =>
      rcases cs with _ | ⟨c, cs2⟩
      · rfl
      · rw [strStopF.eq_def, strStopF.eq_def]
        dsimp only []
        by_cases h22 : c.toNat = 0x22
        · rw [if_pos h22, if_pos h22]
        · rw [if_neg h22, if_neg h22]
          by_cases hctl : c.toNat < 0x20 ∨ c.toNat = 0x2F
          · rw [if_pos hctl, if_pos hctl]
          · rw [if_neg hctl, if_neg hctl]
            by_cases hbs : c.toNat = 0x5C
            · rw [if_pos hbs, if_pos hbs]
              rcases cs2 with _ | ⟨e2, cs3⟩
              · rfl
              · dsimp only []
                by_cases hesc : isEscCh e2 = true
                · rw [if_pos hesc, if_pos hesc]
                  have hlen : cs3.length < fl := by
                    simp only [List.length_cons] at h
                    omega
                  have hlen' : cs3.length < k := by
                    simp only [List.length_cons] at h'
                    omega
                  rw [ih k cs3 hlen hlen']
                · rw [if_neg hesc, if_neg hesc]
                  by_cases hu : e2 = 'u'
                  · rw [if_pos hu, if_pos hu]
                    have hld : (cs3.drop (hexTake cs3 4)).length ≤ cs3.length := by
                      rw [List.length_drop]
                      omega
                    have hlen : (cs3.drop (hexTake cs3 4)).length < fl := by
                      simp only [List.length_cons] at h
                      omega
                    have hlen' : (cs3.drop (hexTake cs3 4)).length < k := by
                      simp only [List.length_cons] at h'
                      omega
                    rw [ih k _ hlen hlen']
                  · rw [if_neg hu, if_neg hu]
            · rw [if_neg hbs, if_neg hbs]
              by_cases hff : c.toNat < 0xFF
              · rw [if_pos hff, if_pos hff]
                have hlen : cs2.length < fl := by
                  simp only [List.length_cons] at h
                  omega
                have hlen' : cs2.length < k := by
                  simp only [List.length_cons] at h'
                  omega
                rw [ih k cs2 hlen hlen']
              · rw [if_neg hff, if_neg hff]

theorem strOk_iff (input : List Char) (q : Nat) :
    strOk (input.drop q) = true ↔
      (q + strStop (input.drop q) < input.length ∧
       input.getD (q + strStop (input.drop q)) c0 = '"') := by
  unfold strOk
  obtain ⟨k, hk⟩ : ∃ k, strStop (input.drop q) = k := ⟨_, rfl⟩
  rw [hk]
  have hdd : (input.drop q).drop k = input.drop (q + k) := by
    rw [List.drop_drop]
  rw [hdd]
  split
  · rename_i tail heq
    obtain ⟨hx, -⟩ := drop_head_getD input (q + k) '"' tail heq
    have hlt : q + k < input.length := by
      by_contra hge
      rw [List.drop_eq_nil_of_le (by omega)] at heq
      exact List.noConfusion heq
    exact ⟨fun _ => ⟨hlt, hx⟩, fun _ => rfl⟩
  · rename_i hne
    constructor
    · exact fun hfalse => absurd hfalse Bool.false_ne_true
    · rintro ⟨hlt, hg⟩
      have hcons : input.drop (q + k) = input.getD (q + k) c0 :: input.drop (q + k + 1) := by
        rw [List.drop_eq_getElem_cons hlt, List.getD_eq_getElem _ _ hlt]
      rw [hg] at hcons
      exact (hne _ hcons).elim

/-- C8 (counterexample): the well-terminated string `"a/b"` with no escapes
and no control characters is rejected — the scan loop breaks on a raw `/`
(`ch == '/'` in the stop condition) and halts at offset 2, the position of
the slash — and the string `"a\u"`, whose `\u` escape is truncated (zero hex
digits), is accepted as a string token, because the hex loop permits up to
four digits without requiring any. -/
theorem C8_counterexample :
    matchString "\"a/b\"".toList 0 = (false, 2)
    ∧ matchString ('"' :: 'a' :: '\\' :: 'u' :: '"' :: []) 0 = (true, 5) := by
  exact ⟨by decide, by decide⟩

/-- C8 (amended): `matchString` is exactly described by the declarative pair
`strOk`/`strStop` over the bytes after the opening quote: the scan halts
after `strStop` interior bytes — at a closing quote, at an offending byte
(control character, raw `/`, the byte `0xFF`, a truncated or unrecognized
escape), or at the end of input — and the token is accepted iff the halt
byte is a closing quote (`strOk`), which is then consumed.  Escapes from the
recognized set and `\uXXXX` (with up to four, possibly fewer, hex digits)
are skipped.  Concretely: `"ab"` is accepted; the unterminated `"ab`, the
control character in `"a<LF>b"` and the unrecognized escape `\q` are
rejected with the scan stopped at the offending byte, not at a quote. -/
theorem C8_matchString_spec (input : List Char) (pos : Nat) :
    matchString input pos
      = (strOk (input.drop (pos + 1)),
         pos + 1 + strStop (input.drop (pos + 1))
           + (if strOk (input.drop (pos + 1)) then 1 else 0))
    ∧ matchString "\"ab\"".toList 0 = (true, 4)
    ∧ matchString "\"ab".toList 0 = (false, 3)
    ∧ matchString ('"' :: 'a' :: '\n' :: 'b' :: '"' :: []) 0 = (false, 2)
    ∧ matchString ('"' :: 'a' :: '\\' :: 'q' :: '"' :: []) 0 = (false, 3) := by
  refine ⟨?_, by decide, by decide, by decide, by decide⟩
  unfold matchString matchStrGo
  rw [matchStrGoF_stop]
  have hfu : strStopF (input.length + 1) (input.drop (pos + 1))
      = strStop (input.drop (pos + 1)) :=
    strStopF_fuel (input.length + 1) ((input.drop (pos + 1)).length + 1) _
      (by rw [List.length_drop]; omega) (by omega)
  rw [hfu]
  obtain ⟨k, hk⟩ : ∃ k, strStop (input.drop (pos + 1)) = k := ⟨_, rfl⟩
  rw [hk]
  by_cases hOk : strOk (input.drop (pos + 1)) = true
  · have hc := (strOk_iff input (pos + 1)).mp hOk
    rw [hk] at hc
    rw [if_pos hc, hOk]
    simp
  · have hOk' : strOk (input.drop (pos + 1)) = false := by
      cases hb : strOk (input.drop (pos + 1)) with
      | false => rfl
      | true => exact absurd hb hOk
    have hnc : ¬(pos + 1 + k < input.length ∧
        input.getD (pos + 1 + k) c0 = '"') := by
      intro hc
      apply hOk
      apply (strOk_iff input (pos + 1)).mpr
      rw [hk]
      exact hc
    rw [if_neg hnc, hOk']
    simp

end ErsJson
